import Mathlib

/-!
Verification of the intrusive_list repository: a shallow embedding of the
circular doubly-linked list code (include/intrusive_list/list.h and
include/list/list.h) together with proofs of the specified properties.

Nodes live in a heap addressed by natural numbers; a node holds the two
link pointers `next` and `prev`, each either null (`none`) or the address
of another node.  Every list operation of the C++ source is translated as
the same sequence of single-field writes, reading the current heap exactly
where the source reads memory.
-/

/-- A doubly-linked list node: the two link pointers (`nullptr` is `none`). -/
@[ext]
structure list_node where
  next : Option Nat
  prev : Option Nat
deriving DecidableEq, Repr

/-- The heap: every address holds a node. -/
abbrev Heap := Nat → list_node

/-- Dereference a possibly-null pointer.  The C++ source only dereferences
non-null pointers on the paths covered by the documented preconditions;
dereferencing null is undefined behavior there and is totalized to 0 here. -/
def deref (p : Option Nat) : Nat := p.getD 0

/-- Write the `next` field of the node at address `i`. -/
def setNext (h : Heap) (i : Nat) (v : Option Nat) : Heap :=
  fun j => if j = i then ⟨v, (h j).prev⟩ else h j

/-- Write the `prev` field of the node at address `i`. -/
def setPrev (h : Heap) (i : Nat) (v : Option Nat) : Heap :=
  fun j => if j = i then ⟨(h j).next, v⟩ else h j

theorem setNext_next (h : Heap) (i : Nat) (v : Option Nat) (j : Nat) :
    ((setNext h i v) j).next = if j = i then v else (h j).next := by
  simp only [setNext]; split <;> rfl

theorem setNext_prev (h : Heap) (i : Nat) (v : Option Nat) (j : Nat) :
    ((setNext h i v) j).prev = (h j).prev := by
  simp only [setNext]; split <;> rfl

theorem setPrev_prev (h : Heap) (i : Nat) (v : Option Nat) (j : Nat) :
    ((setPrev h i v) j).prev = if j = i then v else (h j).prev := by
  simp only [setPrev]; split <;> rfl

theorem setPrev_next (h : Heap) (i : Nat) (v : Option Nat) (j : Nat) :
    ((setPrev h i v) j).next = (h j).next := by
  simp only [setPrev]; split <;> rfl

/-- Two nodes are consecutively linked: `a.next == b` and `b.prev == a`. -/
def linked (h : Heap) (a b : Nat) : Prop :=
  (h a).next = some b ∧ (h b).prev = some a

instance (h : Heap) : DecidableRel (linked h) := fun a b =>
  inferInstanceAs (Decidable ((h a).next = some b ∧ (h b).prev = some a))

/-- The ring invariant of the circular doubly-linked list: the listed nodes,
in order, are pairwise distinct and cyclically linked (each node's `next` is
the following node and that node's `prev` points back), the last node linking
back to the first.  `isRing h [s]` is the empty list (sentinel self-loop);
`isRing h (s :: elems)` is a list with sentinel `s` holding `elems` in order. -/
def isRing (h : Heap) (l : List Nat) : Prop :=
  l.Nodup ∧ List.Chain' (linked h) (l ++ l.take 1)

/-- Executable check for `linked`. -/
def linkedb (h : Heap) (a b : Nat) : Bool :=
  ((h a).next == some b) && ((h b).prev == some a)

/-- Executable check for a `Chain'` of links. -/
def chainb (h : Heap) : List Nat → Bool
  | [] => true
  | [_] => true
  | a :: b :: t => linkedb h a b && chainb h (b :: t)

/-- Executable duplicate-freedom check. -/
def nodupb : List Nat → Bool
  | [] => true
  | a :: t => !(List.elem a t) && nodupb t

theorem linkedb_iff (h : Heap) (a b : Nat) :
    linkedb h a b = true ↔ linked h a b := by
  simp [linkedb, linked]

theorem chainb_iff (h : Heap) :
    ∀ l, chainb h l = true ↔ List.Chain' (linked h) l
  | [] => by simp [chainb]
  | [a] => by simp [chainb]
  | a :: b :: t => by
    have ih := chainb_iff h (b :: t)
    rw [List.chain'_cons,
      show chainb h (a :: b :: t) = (linkedb h a b && chainb h (b :: t))
        from rfl,
      Bool.and_eq_true, linkedb_iff, ih]

theorem nodupb_iff : ∀ l : List Nat, nodupb l = true ↔ l.Nodup
  | [] => by simp [nodupb]
  | a :: t => by
    have ih := nodupb_iff t
    simp [nodupb, List.nodup_cons, ih, List.elem_iff]

instance (h : Heap) (l : List Nat) : Decidable (isRing h l) :=
  decidable_of_iff ((nodupb l && chainb h (l ++ l.take 1)) = true)
    (by rw [Bool.and_eq_true, nodupb_iff, chainb_iff]; exact Iff.rfl)

/-- Framing: a chain of links is unaffected by heap writes that do not touch
the `next` field of any node but the last, nor the `prev` field of any node
but the first. -/
theorem chain_frame (h h' : Heap) :
    ∀ (l : List Nat),
      (∀ x ∈ l.dropLast, (h' x).next = (h x).next) →
      (∀ x ∈ l.tail, (h' x).prev = (h x).prev) →
      List.Chain' (linked h) l → List.Chain' (linked h') l
  | [], _, _, _ => List.chain'_nil
  | [_], _, _, _ => List.chain'_singleton _
  | a :: b :: t, hn, hp, hc => by
    rw [List.chain'_cons] at hc ⊢
    refine ⟨⟨?_, ?_⟩, ?_⟩
    · rw [hn a (by simp)]; exact hc.1.1
    · rw [hp b (by simp)]; exact hc.1.2
    · exact chain_frame h h' (b :: t)
        (fun x hx => hn x (by simp at hx ⊢; tauto))
        (fun x hx => hp x (by simp at hx ⊢; tauto)) hc.2

theorem getLast?_cons_eq (a : Nat) (l : List Nat) :
    (a :: l).getLast? = some (l.getLastD a) := by
  induction l generalizing a with
  | nil => rfl
  | cons b t ih => rw [List.getLast?_cons_cons, ih, List.getLastD_cons]

theorem dropLast_concat_getLastD (a : Nat) (l : List Nat) :
    (a :: l).dropLast ++ [l.getLastD a] = a :: l := by
  have := List.dropLast_append_getLast? (l := a :: l) (a := l.getLastD a)
  exact this (getLast?_cons_eq a l)

/-- In a non-empty ring, the cyclic chain starting at the head. -/
theorem isRing_chain {h : Heap} {a : Nat} {l : List Nat} (hr : isRing h (a :: l)) :
    List.Chain' (linked h) (a :: l ++ [a]) := by
  have := hr.2
  simpa using this

/-- Rotating a ring by one position preserves the ring invariant. -/
theorem isRing_rotate_one {h : Heap} {a : Nat} {l : List Nat}
    (hr : isRing h (a :: l)) : isRing h (l ++ [a]) := by
  rcases hr with ⟨hnd, hc⟩
  constructor
  · simpa [List.nodup_append, List.nodup_cons, and_comm] using hnd
  · cases l with
    | nil => simpa using hc
    | cons b t =>
      simp only [List.take, List.cons_append, List.nil_append] at hc ⊢
      -- hypothesis chain: a :: b :: t ++ [a]; goal chain: b :: t ++ [a] ++ [b]
      rw [List.chain'_cons] at hc
      have h1 : linked h a b := hc.1
      have h2 : List.Chain' (linked h) ((b :: (t ++ [a])) ++ [b]) := by
        rw [List.chain'_append]
        refine ⟨hc.2, List.chain'_singleton _, ?_⟩
        intro x hx y hy
        simp only [List.head?] at hy
        rw [getLast?_cons_eq] at hx
        simp only [Option.mem_def, Option.some.injEq] at hx hy
        subst hy
        have : (t ++ [a]).getLastD b = a := by
          cases t <;> simp [List.getLastD_cons, List.getLastD]
        rw [this] at hx
        subst hx
        exact h1
      simpa using h2

/-- Rotating a ring by any split preserves the ring invariant. -/
theorem isRing_rotate {h : Heap} :
    ∀ (l₁ l₂ : List Nat), isRing h (l₁ ++ l₂) → isRing h (l₂ ++ l₁)
  | [], l₂, hr => by simpa using hr
  | a :: t, l₂, hr => by
    have h1 : isRing h ((t ++ l₂) ++ [a]) := isRing_rotate_one (by simpa using hr)
    have h2 : isRing h (t ++ (l₂ ++ [a])) := by simpa using h1
    have h3 := isRing_rotate t (l₂ ++ [a]) h2
    simpa using h3

/-- The head of a non-empty ring points forward to the next listed node
(or to itself when it is alone). -/
theorem isRing_next_head {h : Heap} {a : Nat} {l : List Nat}
    (hr : isRing h (a :: l)) : (h a).next = some (l.headD a) := by
  have hc := isRing_chain hr
  cases l with
  | nil =>
    have h1 : linked h a a := by simpa using hc
    simpa using h1.1
  | cons b t =>
    have hc' : List.Chain' (linked h) (a :: b :: (t ++ [a])) := by simpa using hc
    simpa using (List.chain'_cons.mp hc').1.1

/-- The head of a non-empty ring points back to the last listed node
(or to itself when it is alone). -/
theorem isRing_prev_head {h : Heap} {a : Nat} {l : List Nat}
    (hr : isRing h (a :: l)) : (h a).prev = some (l.getLastD a) := by
  have hc := isRing_chain hr
  have hsplit : List.Chain' (linked h) ((a :: l) ++ [a]) := by simpa using hc
  rw [List.chain'_append] at hsplit
  have := hsplit.2.2 (l.getLastD a) (by rw [getLast?_cons_eq]; rfl) a rfl
  exact this.2

theorem getLastD_not_mem_dropLast (a : Nat) (l : List Nat)
    (hnd : (a :: l).Nodup) : l.getLastD a ∉ (a :: l).dropLast := by
  intro hmem
  have heq := dropLast_concat_getLastD a l
  rw [← heq, List.nodup_append] at hnd
  exact hnd.2.2 hmem (by simp)

theorem headD_not_mem_tail (a : Nat) (l : List Nat)
    (hnd : (a :: l).Nodup) : (a :: l).headD a ∉ (a :: l).tail := by
  simpa using (List.nodup_cons.mp hnd).1

/-- Core unlinking lemma: if the heap `h'` splices `p` directly to the node
that followed the segment `s` in the ring `p :: s ++ rest`, points that node
back at `p`, and leaves the link fields of all other ring nodes unchanged,
then `p :: rest` is a ring in `h'`.  (The former links of the nodes of `s`
may have been changed arbitrarily.) -/
theorem detach_core (h h' : Heap) (p : Nat) (s rest : List Nat)
    (hr : isRing h (p :: (s ++ rest)))
    (w1 : (h' p).next = some (rest.headD p))
    (w2 : (h' (rest.headD p)).prev = some p)
    (fn : ∀ z ∈ p :: rest, z ≠ p → z ∉ s → (h' z).next = (h z).next)
    (fp : ∀ z ∈ p :: rest, z ≠ rest.headD p → z ∉ s → (h' z).prev = (h z).prev) :
    isRing h' (p :: rest) := by
  have hnd : (p :: (s ++ rest)).Nodup := hr.1
  have hndsub : (p :: rest).Nodup := by
    refine List.Nodup.sublist ?_ hnd
    exact (List.sublist_append_right s rest).cons₂ p
  obtain ⟨hps, hsr⟩ := List.nodup_cons.mp hnd
  rw [List.nodup_append] at hsr
  constructor
  · exact hndsub
  · cases rest with
    | nil =>
      have : linked h' p p := ⟨by simpa using w1, by simpa using w2⟩
      simpa [isRing] using this
    | cons n t =>
      have hgoal : List.Chain' (linked h') (p :: (n :: (t ++ [p]))) := by
        rw [List.chain'_cons]
        refine ⟨⟨by simpa using w1, by simpa using w2⟩, ?_⟩
        have hold : List.Chain' (linked h) (n :: (t ++ [p])) := by
          have hbig := isRing_chain hr
          refine List.Chain'.suffix hbig ⟨p :: s, by simp⟩
        refine chain_frame h h' _ ?_ ?_ hold
        · intro x hx
          have hassoc : (n :: (t ++ [p])).dropLast = n :: t := by
            have h2 : (n :: (t ++ [p])) = (n :: t) ++ [p] := by simp
            rw [h2, List.dropLast_concat]
          rw [hassoc] at hx
          refine fn x (List.mem_cons_of_mem p hx) ?_ ?_
          · intro he
            rw [he] at hx
            exact hps (List.mem_append.mpr (Or.inr hx))
          · intro hxs
            exact hsr.2.2 hxs hx
        · intro x hx
          rw [List.tail_cons] at hx
          rcases List.mem_append.mp hx with h1 | h1
          · refine fp x (by simp [h1]) ?_ ?_
            · intro he
              have hxn : x = n := by simpa using he
              rw [hxn] at h1
              exact (List.nodup_cons.mp hsr.2.1).1 h1
            · intro hxs
              exact hsr.2.2 hxs (List.mem_cons_of_mem n h1)
          · have hxp : x = p := by simpa using h1
            refine fp x (by simp [hxp]) ?_ ?_
            · intro he
              have hpn : p = n := by rw [hxp] at he; simpa using he
              exact hps (List.mem_append.mpr (Or.inr (by simp [hpn])))
            · intro hxs
              rw [hxp] at hxs
              exact hps (List.mem_append.mpr (Or.inl hxs))
      simpa [isRing] using hgoal

/-- Core tail-attachment lemma: if the heap `h'` splices a non-empty chain
segment `r` (with endpoints `r.headD H` and `r.getLastD H`) between the last
node `q` of the ring `H :: w` and its head `H`, leaving every other link
field unchanged, then `H :: w ++ r` is a ring in `h'`. -/
theorem attach_core (h h' : Heap) (H q : Nat) (w r : List Nat)
    (hr : isRing h (H :: w)) (hq : q = w.getLastD H)
    (hc : List.Chain' (linked h) r) (hrne : r ≠ [])
    (hnd : r.Nodup) (hdisj : ∀ z ∈ r, z ∉ H :: w)
    (w1 : (h' q).next = some (r.headD H))
    (w2 : (h' (r.headD H)).prev = some q)
    (w3 : (h' (r.getLastD H)).next = some H)
    (w4 : (h' H).prev = some (r.getLastD H))
    (fn : ∀ z ∈ H :: (w ++ r), z ≠ q → z ≠ r.getLastD H →
      (h' z).next = (h z).next)
    (fp : ∀ z ∈ H :: (w ++ r), z ≠ r.headD H → z ≠ H →
      (h' z).prev = (h z).prev) :
    isRing h' (H :: (w ++ r)) := by
  obtain ⟨f, r', rfl⟩ : ∃ f r', r = f :: r' := by
    cases r with
    | nil => exact absurd rfl hrne
    | cons f r' => exact ⟨f, r', rfl⟩
  have hndHw : (H :: w).Nodup := hr.1
  have hfD : (f :: r').headD H = f := rfl
  have hlD : (f :: r').getLastD H = r'.getLastD f := List.getLastD_cons H f r'
  have hlmem : (f :: r').getLastD H ∈ f :: r' := by
    rw [hlD]; exact List.getLastD_mem_cons r' f
  constructor
  · rw [List.nodup_cons] at hndHw ⊢
    refine ⟨?_, ?_⟩
    · intro hmem
      rcases List.mem_append.mp hmem with h1 | h1
      · exact hndHw.1 h1
      · exact hdisj H h1 (by simp)
    · rw [List.nodup_append]
      exact ⟨hndHw.2, hnd, fun a ha hb => hdisj a hb (by simp [ha])⟩
  · have hgoal : List.Chain' (linked h') ((H :: w) ++ ((f :: r') ++ [H])) := by
      rw [List.chain'_append]
      refine ⟨?_, ?_, ?_⟩
      · -- the old ring body, framed
        have hbig : List.Chain' (linked h) ((H :: w) ++ [H]) := by
          simpa using isRing_chain hr
        have hold : List.Chain' (linked h) (H :: w) := (List.chain'_append.mp hbig).1
        refine chain_frame h h' _ ?_ ?_ hold
        · intro x hx
          have hxHw : x ∈ H :: w := (List.dropLast_sublist (H :: w)).subset hx
          have hxmem : x ∈ H :: (w ++ f :: r') := by
            rcases List.mem_cons.mp hxHw with h1 | h1
            · simp [h1]
            · simp [List.mem_append.mpr (Or.inl h1)]
          refine fn x hxmem ?_ ?_
          · intro he
            rw [he, hq] at hx
            exact getLastD_not_mem_dropLast H w hndHw hx
          · intro he
            rw [he] at hx
            exact hdisj _ hlmem ((List.dropLast_sublist (H :: w)).subset hx)
        · intro x hx
          have hxw : x ∈ w := by simpa using hx
          refine fp x (by simp [List.mem_append.mpr (Or.inl hxw)]) ?_ ?_
          · intro he
            rw [he, hfD] at hx
            exact hdisj f (by simp) (List.mem_of_mem_tail hx)
          · intro he
            rw [he] at hx
            exact (List.nodup_cons.mp hndHw).1 (by simpa using hx)
      · -- the new segment followed by H, framed plus the closing link
        rw [List.chain'_append]
        refine ⟨?_, List.chain'_singleton _, ?_⟩
        · refine chain_frame h h' _ ?_ ?_ hc
          · intro x hx
            have hxr : x ∈ f :: r' := (List.dropLast_sublist (f :: r')).subset hx
            refine fn x (by simp [List.mem_append.mpr (Or.inr hxr)]) ?_ ?_
            · intro he
              rw [he, hq] at hx
              exact hdisj _ ((List.dropLast_sublist (f :: r')).subset hx)
                (List.getLastD_mem_cons w H)
            · intro he
              rw [he, hlD] at hx
              exact getLastD_not_mem_dropLast f r' hnd hx
          · intro x hx
            have hxr : x ∈ f :: r' := List.mem_of_mem_tail hx
            refine fp x (by simp [List.mem_append.mpr (Or.inr hxr)]) ?_ ?_
            · intro he
              rw [he, hfD] at hx
              exact (List.nodup_cons.mp hnd).1 (by simpa using hx)
            · intro he
              rw [he] at hx
              exact hdisj H (List.mem_of_mem_tail hx) (by simp)
        · intro x hx y hy
          rw [getLast?_cons_eq] at hx
          have hxv : x = r'.getLastD f := by symm; simpa using hx
          have hyv : y = H := by symm; simpa using hy
          rw [hxv, hyv, ← hlD]
          exact ⟨w3, w4⟩
      · intro x hx y hy
        rw [getLast?_cons_eq] at hx
        have hxv : x = w.getLastD H := by symm; simpa using hx
        have hyv : y = f := by symm; simpa using hy
        rw [hxv, hyv, ← hq]
        exact ⟨by simpa using w1, by simpa using w2⟩
    have hassoc : (H :: (w ++ f :: r')) ++ (H :: (w ++ f :: r')).take 1
        = (H :: w) ++ ((f :: r') ++ [H]) := by simp
    rw [hassoc]
    exact hgoal

/-- Core wrapping lemma: if the heap `h'` closes a non-empty chain segment
`seg` into a cycle through the node `L` (whose former links are irrelevant,
both being overwritten), leaving every other link field unchanged, then
`L :: seg` is a ring in `h'`. -/
theorem wrap_core (h h' : Heap) (L : Nat) (seg : List Nat)
    (hc : List.Chain' (linked h) seg) (hsne : seg ≠ [])
    (hnd : seg.Nodup) (hL : L ∉ seg)
    (w1 : (h' L).next = some (seg.headD L))
    (w2 : (h' (seg.headD L)).prev = some L)
    (w3 : (h' (seg.getLastD L)).next = some L)
    (w4 : (h' L).prev = some (seg.getLastD L))
    (fn : ∀ z ∈ seg, z ≠ L → z ≠ seg.getLastD L → (h' z).next = (h z).next)
    (fp : ∀ z ∈ seg, z ≠ L → z ≠ seg.headD L → (h' z).prev = (h z).prev) :
    isRing h' (L :: seg) := by
  obtain ⟨f, r', rfl⟩ : ∃ f r', seg = f :: r' := by
    cases seg with
    | nil => exact absurd rfl hsne
    | cons f r' => exact ⟨f, r', rfl⟩
  have hfD : (f :: r').headD L = f := rfl
  have hlD : (f :: r').getLastD L = r'.getLastD f := List.getLastD_cons L f r'
  constructor
  · exact List.nodup_cons.mpr ⟨hL, hnd⟩
  · have hgoal : List.Chain' (linked h') (L :: ((f :: r') ++ [L])) := by
      rw [List.cons_append, List.chain'_cons, ← List.cons_append]
      refine ⟨⟨by simpa [hfD] using w1, by simpa [hfD] using w2⟩, ?_⟩
      rw [List.chain'_append]
      refine ⟨?_, List.chain'_singleton _, ?_⟩
      · refine chain_frame h h' _ ?_ ?_ hc
        · intro x hx
          refine fn x ((List.dropLast_sublist (f :: r')).subset hx) ?_ ?_
          · intro he
            rw [he] at hx
            exact hL ((List.dropLast_sublist (f :: r')).subset hx)
          · intro he
            rw [he, hlD] at hx
            exact getLastD_not_mem_dropLast f r' hnd hx
        · intro x hx
          refine fp x (List.mem_of_mem_tail hx) ?_ ?_
          · intro he
            rw [he] at hx
            exact hL (List.mem_of_mem_tail hx)
          · intro he
            rw [he, hfD] at hx
            exact (List.nodup_cons.mp hnd).1 (by simpa using hx)
      · intro x hx y hy
        rw [getLast?_cons_eq] at hx
        have hxv : x = r'.getLastD f := by symm; simpa using hx
        have hyv : y = L := by symm; simpa using hy
        rw [hxv, hyv, ← hlD]
        exact ⟨w3, w4⟩
    have hassoc : (L :: f :: r') ++ (L :: f :: r').take 1
        = L :: ((f :: r') ++ [L]) := by simp
    rw [hassoc]
    exact hgoal

namespace intrusive_list

/-- list_node::remove_self_from_list (include/intrusive_list/list.h):
next->prev = prev; prev->next = next; next = nullptr; prev = nullptr. -/
def remove_self_from_list (h : Heap) (self : Nat) : Heap :=
  let h1 := setPrev h (deref (h self).next) (h self).prev
  let h2 := setNext h1 (deref (h1 self).prev) (h1 self).next
  let h3 := setNext h2 self none
  setPrev h3 self none

/-- list_node::have_container: next && prev. -/
def have_container (h : Heap) (self : Nat) : Bool :=
  (h self).next.isSome && (h self).prev.isSome

namespace internal

/-- internal::_list_add: next->prev = new_; new_->next = next;
new_->prev = prev; prev->next = new_. -/
def _list_add (h : Heap) (new_ prev next : Nat) : Heap :=
  let h1 := setPrev h next (some new_)
  let h2 := setNext h1 new_ (some next)
  let h3 := setPrev h2 new_ (some prev)
  setNext h3 prev (some new_)

/-- internal::list_add: _list_add(new_, head, head->next). -/
def list_add (h : Heap) (new_ head : Nat) : Heap :=
  _list_add h new_ head (deref (h head).next)

/-- internal::list_add_tail: _list_add(new_, head->prev, head). -/
def list_add_tail (h : Heap) (new_ head : Nat) : Heap :=
  _list_add h new_ (deref (h head).prev) head

/-- internal::list_move_tail: list->remove_self_from_list();
list_add_tail(list, head). -/
def list_move_tail (h : Heap) (lst head : Nat) : Heap :=
  list_add_tail (remove_self_from_list h lst) lst head

/-- internal::list_empty: head->next == head. -/
def list_empty (h : Heap) (head : Nat) : Bool :=
  (h head).next == some head

/-- internal::list_rotate_left: if (!list_empty(head)) { first = head->next;
list_move_tail(first, head); }. -/
def list_rotate_left (h : Heap) (head : Nat) : Heap :=
  if list_empty h head then h
  else list_move_tail h (deref (h head).next) head

/-- internal::list_is_singular: !list_empty(head) && head->next == head->prev. -/
def list_is_singular (h : Heap) (head : Nat) : Bool :=
  !list_empty h head && ((h head).next == (h head).prev)

end internal

/-- list<T, node_field>::push_front: list_add(node(item), &head_).
Objects are identified with the address of their embedded node, so the
get_node / get_owner conversions are the identity here (see the owner_of
round-trip theorem for the address arithmetic they perform). -/
def push_front (h : Heap) (head item : Nat) : Heap :=
  internal.list_add h item head

/-- list<T, node_field>::push_back: list_add_tail(node(item), &head_). -/
def push_back (h : Heap) (head item : Nat) : Heap :=
  internal.list_add_tail h item head

/-- list<T, node_field>::remove_if_exists: unlink only when
node->have_container(). -/
def remove_if_exists (h : Heap) (item : Nat) : Heap :=
  if have_container h item then remove_self_from_list h item else h

/-- list<T, node_field>::rotate_left. -/
def rotate_left (h : Heap) (head : Nat) : Heap :=
  internal.list_rotate_left h head

/-- list<T, node_field>::is_singular. -/
def is_singular (h : Heap) (head : Nat) : Bool :=
  internal.list_is_singular h head

/-- list<T, node_field>::pop_front: front node removes itself. -/
def pop_front (h : Heap) (head : Nat) : Heap :=
  remove_self_from_list h (deref (h head).next)

/-- list<T, node_field>::pop_back: back node removes itself. -/
def pop_back (h : Heap) (head : Nat) : Heap :=
  remove_self_from_list h (deref (h head).prev)

/-- list<T, node_field>::front: owner of head_.next. -/
def front (h : Heap) (head : Nat) : Nat :=
  deref (h head).next

/-- list<T, node_field>::back: owner of head_.prev. -/
def back (h : Heap) (head : Nat) : Nat :=
  deref (h head).prev

/-- list<T, node_field>::empty. -/
def empty (h : Heap) (head : Nat) : Bool :=
  internal.list_empty h head

/-- list<T, node_field>::erase: ret = position.node->next;
position.node->remove_self_from_list(); return ret.  The result pairs the
new heap with the returned iterator's node. -/
def erase (h : Heap) (position : Nat) : Heap × Nat :=
  (remove_self_from_list h position, deref (h position).next)

end intrusive_list

namespace list

/-- offset_of (include/list/list.h): the byte distance of the member within
its containing type, a compile-time constant.  Field selectors are modelled
by that byte offset; addresses are integers (intptr_t). -/
def offset_of (member : Int) : Int := member

/-- owner_of (include/list/list.h): (Type*)((intptr_t)ptr - offset_of(member)). -/
def owner_of (ptr : Int) (member : Int) : Int := ptr - offset_of member

/-- The address of `obj.field` for an object at address `base`: the field of
an object lives at the constant byte offset of the member. -/
def member_addr (base : Int) (member : Int) : Int := base + member

/-- INIT_LIST_HEAD: list->next = list; list->prev = list. -/
def INIT_LIST_HEAD (h : Heap) (lst : Nat) : Heap :=
  setPrev (setNext h lst (some lst)) lst (some lst)

/-- __list_add_valid: the non-CONFIG_DEBUG_LIST build always returns true. -/
def __list_add_valid (h : Heap) (new_ prev next : Nat) : Bool := true

/-- __list_del_entry_valid: the non-CONFIG_DEBUG_LIST build always
returns true. -/
def __list_del_entry_valid (h : Heap) (entry : Nat) : Bool := true

/-- __list_add: if valid, next->prev = new_; new_->next = next;
new_->prev = prev; prev->next = new_. -/
def __list_add (h : Heap) (new_ prev next : Nat) : Heap :=
  if !__list_add_valid h new_ prev next then h
  else
    let h1 := setPrev h next (some new_)
    let h2 := setNext h1 new_ (some next)
    let h3 := setPrev h2 new_ (some prev)
    setNext h3 prev (some new_)

/-- list_add: __list_add(new_, head, head->next). -/
def list_add (h : Heap) (new_ head : Nat) : Heap :=
  __list_add h new_ head (deref (h head).next)

/-- list_add_tail: __list_add(new_, head->prev, head). -/
def list_add_tail (h : Heap) (new_ head : Nat) : Heap :=
  __list_add h new_ (deref (h head).prev) head

/-- __list_del: next->prev = prev; prev->next = next. -/
def __list_del (h : Heap) (prev next : Nat) : Heap :=
  setNext (setPrev h next (some prev)) prev (some next)

/-- __list_del_entry: if valid, __list_del(entry->prev, entry->next). -/
def __list_del_entry (h : Heap) (entry : Nat) : Heap :=
  if !__list_del_entry_valid h entry then h
  else __list_del h (deref (h entry).prev) (deref (h entry).next)

/-- list_del: __list_del_entry(entry); entry->next = NULL; entry->prev = NULL. -/
def list_del (h : Heap) (entry : Nat) : Heap :=
  setPrev (setNext (__list_del_entry h entry) entry none) entry none

/-- list_empty: head->next == head. -/
def list_empty (h : Heap) (head : Nat) : Bool :=
  (h head).next == some head

/-- list_is_singular: !list_empty(head) && head->next == head->prev. -/
def list_is_singular (h : Heap) (head : Nat) : Bool :=
  !list_empty h head && ((h head).next == (h head).prev)

/-- list_move: __list_del_entry(list); list_add(list, head). -/
def list_move (h : Heap) (lst head : Nat) : Heap :=
  list_add (__list_del_entry h lst) lst head

/-- list_move_tail: __list_del_entry(list); list_add_tail(list, head). -/
def list_move_tail (h : Heap) (lst head : Nat) : Heap :=
  list_add_tail (__list_del_entry h lst) lst head

/-- list_bulk_move_tail: the six pointer writes, in source order, each read
resolved against the heap produced by the preceding writes. -/
def list_bulk_move_tail (h : Heap) (head first last : Nat) : Heap :=
  let h1 := setNext h (deref (h first).prev) (h last).next
  let h2 := setPrev h1 (deref (h1 last).next) (h1 first).prev
  let h3 := setNext h2 (deref (h2 head).prev) (some first)
  let h4 := setPrev h3 first (h3 head).prev
  let h5 := setNext h4 last (some head)
  setPrev h5 head (some last)

/-- __list_cut_position: new_first = entry->next; list->next = head->next;
list->next->prev = list; list->prev = entry; entry->next = list;
head->next = new_first; new_first->prev = head. -/
def __list_cut_position (h : Heap) (lst head entry : Nat) : Heap :=
  let new_first := deref (h entry).next
  let h1 := setNext h lst (h head).next
  let h2 := setPrev h1 (deref (h1 lst).next) (some lst)
  let h3 := setPrev h2 lst (some entry)
  let h4 := setNext h3 entry (some lst)
  let h5 := setNext h4 head (some new_first)
  setPrev h5 new_first (some head)

/-- list_cut_position, with its three guards. -/
def list_cut_position (h : Heap) (lst head entry : Nat) : Heap :=
  if list_empty h head then h
  else if list_is_singular h head
      && !((h head).next == some entry) && !(head == entry) then h
  else if entry == head then INIT_LIST_HEAD h lst
  else __list_cut_position h lst head entry

/-- __list_splice: first = list->next; last = list->prev; first->prev = prev;
prev->next = first; last->next = next; next->prev = last. -/
def __list_splice (h : Heap) (lst prev next : Nat) : Heap :=
  let first := deref (h lst).next
  let last := deref (h lst).prev
  let h1 := setPrev h first (some prev)
  let h2 := setNext h1 prev (some first)
  let h3 := setNext h2 last (some next)
  setPrev h3 next (some last)

/-- list_splice: if (!list_empty(list)) __list_splice(list, head, head->next). -/
def list_splice (h : Heap) (lst head : Nat) : Heap :=
  if list_empty h lst then h
  else __list_splice h lst head (deref (h head).next)

end list

theorem headD_append_singleton (l : List Nat) (p d : Nat) :
    (l ++ [p]).headD d = l.headD p := by
  cases l <;> rfl

theorem getLastD_append_singleton (l : List Nat) (p d : Nat) :
    (l ++ [p]).getLastD d = p := by
  induction l generalizing d with
  | nil => rfl
  | cons a t ih => rw [List.cons_append, List.getLastD_cons, ih]

/-- internal::_list_add inserts the detached node `x` between the consecutive
ring nodes `p` and `n` and yields the ring with `x` placed right after `p`. -/
theorem _list_add_ring {h : Heap} {p n x : Nat} {rest : List Nat}
    (hr : isRing h (p :: rest)) (hn : (h p).next = some n)
    (hx : x ∉ p :: rest) :
    isRing (intrusive_list.internal._list_add h x p n) (p :: x :: rest) := by
  have hnv : n = rest.headD p := by
    have h1 := isRing_next_head hr
    rw [hn] at h1
    exact Option.some_injective _ h1
  have hxp : x ≠ p := fun he => hx (by simp [he])
  have hxr : x ∉ rest := fun hm => hx (by simp [hm])
  have hnp : n ∈ p :: rest := by
    rw [hnv]; cases rest with
    | nil => simp
    | cons a t => simp
  have hxn : x ≠ n := fun he => hx (he ▸ hnp)
  have hrot : isRing h (rest ++ [p]) := by
    have := isRing_rotate [p] rest (by simpa using hr)
    simpa using this
  set h' := intrusive_list.internal._list_add h x p n with hh'
  have w1 : (h' p).next = some x := by
    simp [hh', intrusive_list.internal._list_add, setNext_next]
  have w2 : (h' x).prev = some p := by
    simp [hh', intrusive_list.internal._list_add, setNext_next, setNext_prev,
      setPrev_prev, hxp]
  have w3 : (h' x).next = some n := by
    simp [hh', intrusive_list.internal._list_add, setNext_next, setPrev_next,
      hxp]
  have w4 : (h' n).prev = some x := by
    have hnx : n ≠ x := fun he => hxn he.symm
    simp [hh', intrusive_list.internal._list_add, setNext_prev, setPrev_prev,
      hnx]
  have fn : ∀ z, z ≠ p → z ≠ x → (h' z).next = (h z).next := by
    intro z hzp hzx
    simp [hh', intrusive_list.internal._list_add, setNext_next, setPrev_next,
      hzp, hzx]
  have fp : ∀ z, z ≠ x → z ≠ n → (h' z).prev = (h z).prev := by
    intro z hzx hzn
    simp [hh', intrusive_list.internal._list_add, setNext_prev, setPrev_prev,
      hzx, hzn]
  have hres : isRing h' ((rest ++ [p]) ++ [x]) := by
    cases rest with
    | nil =>
      refine attach_core h h' p p [] [x] (by simpa using hrot) rfl
        (List.chain'_singleton x) (by simp) (by simp) ?_ ?_ ?_ ?_ ?_ ?_ ?_
      · intro z hz; simp at hz
        rw [hz]; simpa using hxp
      · simpa using w1
      · simpa using w2
      · have : n = p := by simpa using hnv
        simpa [this] using w3
      · have : n = p := by simpa using hnv
        rw [this] at w4; simpa using w4
      · intro z hzmem hzq hzl
        exact fn z hzq (by simpa using hzl)
      · intro z hzmem hzf hzH
        refine fp z (by simpa using hzf) ?_
        intro he
        have hnp2 : n = p := by simpa using hnv
        exact hzH (he.trans hnp2)
    | cons r0 rt =>
      have hq : p = (rt ++ [p]).getLastD r0 := (getLastD_append_singleton rt p r0).symm
      have hnr : n = r0 := by simpa using hnv
      refine attach_core h h' r0 p (rt ++ [p]) [x] (by simpa using hrot) hq
        (List.chain'_singleton x) (by simp) (by simp) ?_ ?_ ?_ ?_ ?_ ?_ ?_
      · intro z hz
        simp at hz
        rw [hz]
        simp at hx ⊢
        tauto
      · simpa using w1
      · simpa using w2
      · simpa [hnr] using w3
      · rw [hnr] at w4; simpa using w4
      · intro z hzmem hzq hzl
        exact fn z hzq (by simpa using hzl)
      · intro z hzmem hzf hzH
        exact fp z (by simpa using hzf) (fun he => hzH (he.trans hnr))
  have hfin := isRing_rotate rest [p, x] (by simpa using hres)
  simpa using hfin

/-- internal::list_add (push_front) keeps the ring, placing `x` first. -/
theorem list_add_ring {h : Heap} {hd x : Nat} {rest : List Nat}
    (hr : isRing h (hd :: rest)) (hx : x ∉ hd :: rest) :
    isRing (intrusive_list.internal.list_add h x hd) (hd :: x :: rest) := by
  have hn := isRing_next_head hr
  have hder : deref (h hd).next = rest.headD hd := by rw [hn]; rfl
  have : intrusive_list.internal.list_add h x hd
      = intrusive_list.internal._list_add h x hd (rest.headD hd) := by
    rw [intrusive_list.internal.list_add, hder]
  rw [this]
  exact _list_add_ring hr (by rw [hn]) hx

/-- internal::list_add_tail (push_back) keeps the ring, placing `x` last. -/
theorem list_add_tail_ring {h : Heap} {hd x : Nat} {rest : List Nat}
    (hr : isRing h (hd :: rest)) (hx : x ∉ hd :: rest) :
    isRing (intrusive_list.internal.list_add_tail h x hd) (hd :: (rest ++ [x])) := by
  have hp := isRing_prev_head hr
  have hq : deref (h hd).prev = rest.getLastD hd := by rw [hp]; rfl
  have hxhd : x ≠ hd := fun he => hx (by simp [he])
  have hqmem : rest.getLastD hd ∈ hd :: rest := List.getLastD_mem_cons rest hd
  have hxq : x ≠ rest.getLastD hd := fun he => hx (he ▸ hqmem)
  set q := rest.getLastD hd with hqd
  have heq : intrusive_list.internal.list_add_tail h x hd
      = intrusive_list.internal._list_add h x q hd := by
    rw [intrusive_list.internal.list_add_tail, hq]
  rw [heq]
  set h' := intrusive_list.internal._list_add h x q hd with hh'
  have w1 : (h' q).next = some x := by
    simp [hh', intrusive_list.internal._list_add, setNext_next]
  have w2 : (h' x).prev = some q := by
    simp [hh', intrusive_list.internal._list_add, setNext_prev, setPrev_prev,
      hxq]
  have w3 : (h' x).next = some hd := by
    simp [hh', intrusive_list.internal._list_add, setNext_next, setPrev_next,
      hxq]
  have w4 : (h' hd).prev = some x := by
    have h1 : hd ≠ x := fun he => hxhd he.symm
    simp [hh', intrusive_list.internal._list_add, setNext_prev, setPrev_prev,
      h1]
  refine attach_core h h' hd q rest [x] hr hqd (List.chain'_singleton x)
    (by simp) (by simp) ?_ (by simpa using w1) (by simpa using w2)
    (by simpa using w3) (by simpa using w4) ?_ ?_
  · intro z hz
    simp at hz
    rw [hz]
    exact hx
  · intro z hzmem hzq hzl
    have hzx : z ≠ x := by simpa using hzl
    simp [hh', intrusive_list.internal._list_add, setNext_next, setPrev_next,
      hzq, hzx]
  · intro z hzmem hzf hzH
    have hzx : z ≠ x := by simpa using hzf
    simp [hh', intrusive_list.internal._list_add, setNext_prev, setPrev_prev,
      hzx, hzH]

/-- remove_self_from_list, for a node `x` whose ring predecessor heads the
list: `p :: x :: rest` becomes `p :: rest` and `x` ends up detached. -/
theorem remove_self_mid_ring {h : Heap} {p x : Nat} {rest : List Nat}
    (hr : isRing h (p :: x :: rest)) :
    isRing (intrusive_list.remove_self_from_list h x) (p :: rest) ∧
      (intrusive_list.remove_self_from_list h x) x = ⟨none, none⟩ := by
  have hnd := hr.1
  have hpx : ¬(p = x) := by
    intro he; rw [List.nodup_cons] at hnd; exact hnd.1 (by simp [he])
  have hxp : ¬(x = p) := fun he => hpx he.symm
  have hlinkpx : linked h p x := by
    have hc' : List.Chain' (linked h) (p :: x :: (rest ++ [p])) := by
      simpa using isRing_chain hr
    exact (List.chain'_cons.mp hc').1
  have hxprev : (h x).prev = some p := hlinkpx.2
  have hrotx : isRing h (x :: (rest ++ [p])) := by
    have := isRing_rotate [p] (x :: rest) (by simpa using hr)
    simpa using this
  obtain ⟨N, hN⟩ : ∃ N, rest.headD p = N := ⟨_, rfl⟩
  have hxnext : (h x).next = some N := by
    have := isRing_next_head hrotx
    rw [this, headD_append_singleton rest p x, hN]
  have hnmem : N ∈ p :: rest := by
    rw [← hN]; cases rest with
    | nil => simp
    | cons a t => simp
  have hxn : ¬(x = N) := by
    intro he
    rw [List.nodup_cons] at hnd
    rcases (List.mem_cons.mp hnmem) with h1 | h1
    · exact hxp (he.trans h1)
    · have hnd2 := hnd.2
      rw [List.nodup_cons] at hnd2
      exact hnd2.1 (he ▸ h1)
  have hnx : ¬(N = x) := fun he => hxn he.symm
  set h' := intrusive_list.remove_self_from_list h x with hh'
  have hdetn : (h' x).next = none := by
    simp [hh', intrusive_list.remove_self_from_list, setPrev_next,
      setNext_next, setPrev_prev, setNext_prev, deref, hxnext, hxprev,
      hxn, hnx, hxp, hpx]
  have hdetp : (h' x).prev = none := by
    simp [hh', intrusive_list.remove_self_from_list, setPrev_next,
      setNext_next, setPrev_prev, setNext_prev, deref, hxnext, hxprev,
      hxn, hnx, hxp, hpx]
  have hdet : h' x = ⟨none, none⟩ := by
    ext
    · rw [hdetn]
    · rw [hdetp]
  have w1 : (h' p).next = some N := by
    simp [hh', intrusive_list.remove_self_from_list, setPrev_next,
      setNext_next, setPrev_prev, setNext_prev, deref, hxnext, hxprev,
      hxn, hnx, hxp, hpx]
  have w2 : (h' N).prev = some p := by
    simp [hh', intrusive_list.remove_self_from_list, setPrev_next,
      setNext_next, setPrev_prev, setNext_prev, deref, hxnext, hxprev,
      hxn, hnx, hxp, hpx]
  refine ⟨?_, hdet⟩
  refine detach_core h h' p [x] rest (by simpa using hr) ?_ ?_ ?_ ?_
  · rw [hN]; exact w1
  · rw [hN]; exact w2
  · intro z hzmem hzp hzs
    have hzx : ¬(z = x) := by simpa using hzs
    have hzp' : ¬(z = p) := hzp
    simp [hh', intrusive_list.remove_self_from_list, setPrev_next,
      setNext_next, setPrev_prev, setNext_prev, deref, hxnext, hxprev,
      hzx, hzp', hxn, hnx]
  · intro z hzmem hzn hzs
    rw [hN] at hzn
    have hzx : ¬(z = x) := by simpa using hzs
    have hzn' : ¬(z = N) := hzn
    simp [hh', intrusive_list.remove_self_from_list, setPrev_next,
      setNext_next, setPrev_prev, setNext_prev, deref, hxnext, hxprev,
      hzx, hzn', hxn, hnx]

/-- remove_self_from_list on any member `x` of a ring `x :: rest`:
the remaining nodes still form a ring and `x` ends up detached. -/
theorem remove_self_front_ring {h : Heap} {x : Nat} {rest : List Nat}
    (hr : isRing h (x :: rest)) :
    isRing (intrusive_list.remove_self_from_list h x) rest ∧
      (intrusive_list.remove_self_from_list h x) x = ⟨none, none⟩ := by
  cases rest with
  | nil =>
    have hxn : (h x).next = some x := by simpa using isRing_next_head hr
    have hxp : (h x).prev = some x := by simpa using isRing_prev_head hr
    constructor
    · exact ⟨List.nodup_nil, List.chain'_nil⟩
    · ext
      · simp [intrusive_list.remove_self_from_list, setPrev_next,
          setNext_next, setPrev_prev, setNext_prev, deref, hxn, hxp]
      · simp [intrusive_list.remove_self_from_list, setPrev_next,
          setNext_next, setPrev_prev, setNext_prev, deref, hxn, hxp]
  | cons r0 rt =>
    have hsplit : x :: r0 :: rt = (x :: (r0 :: rt).dropLast) ++ [rt.getLastD r0] := by
      have h1 := dropLast_concat_getLastD x (r0 :: rt)
      have h2 : (r0 :: rt).getLastD x = rt.getLastD r0 := List.getLastD_cons x r0 rt
      rw [h2] at h1
      rw [← h1]
      simp
    have hrot : isRing h (rt.getLastD r0 :: x :: (r0 :: rt).dropLast) := by
      have hr2 : isRing h ((x :: (r0 :: rt).dropLast) ++ [rt.getLastD r0]) := by
        rw [← hsplit]; exact hr
      have := isRing_rotate (x :: (r0 :: rt).dropLast) [rt.getLastD r0] hr2
      simpa using this
    obtain ⟨hring, hdet⟩ := remove_self_mid_ring hrot
    refine ⟨?_, hdet⟩
    have h3 : isRing (intrusive_list.remove_self_from_list h x)
        ((r0 :: rt).dropLast ++ [rt.getLastD r0]) := by
      have := isRing_rotate [rt.getLastD r0] ((r0 :: rt).dropLast)
        (by simpa using hring)
      simpa using this
    rwa [dropLast_concat_getLastD r0 rt] at h3

theorem headD_mem_cons (l : List Nat) (d : Nat) : l.headD d ∈ d :: l := by
  cases l <;> simp

/-- A ring is insensitive to heap changes outside its nodes. -/
theorem isRing_congr {h h' : Heap} {l : List Nat}
    (hagree : ∀ z ∈ l, h' z = h z) (hr : isRing h l) : isRing h' l := by
  refine ⟨hr.1, ?_⟩
  refine chain_frame h h' _ ?_ ?_ hr.2
  · intro z hz
    have hz2 : z ∈ l ++ l.take 1 := (List.dropLast_sublist _).subset hz
    have hzl : z ∈ l := by
      rcases List.mem_append.mp hz2 with h1 | h1
      · exact h1
      · exact List.take_subset 1 l h1
    rw [hagree z hzl]
  · intro z hz
    have hz2 : z ∈ l ++ l.take 1 := (List.tail_sublist _).subset hz
    have hzl : z ∈ l := by
      rcases List.mem_append.mp hz2 with h1 | h1
      · exact h1
      · exact List.take_subset 1 l h1
    rw [hagree z hzl]

/-- remove_self_from_list only writes the removed node and its two ring
neighbours. -/
theorem remove_self_writes {h : Heap} {x : Nat} {r1 : List Nat}
    (hr : isRing h (x :: r1)) :
    ∀ z, z ∉ x :: r1 → intrusive_list.remove_self_from_list h x z = h z := by
  intro z hz
  have hxnext : (h x).next = some (r1.headD x) := isRing_next_head hr
  have hxprev : (h x).prev = some (r1.getLastD x) := isRing_prev_head hr
  have hzx : ¬(z = x) := fun he => hz (by simp [he])
  have hzn : ¬(z = r1.headD x) := fun he => hz (he ▸ headD_mem_cons r1 x)
  have hzp : ¬(z = r1.getLastD x) :=
    fun he => hz (he ▸ List.getLastD_mem_cons r1 x)
  have hzn2 : ¬(z = r1.head?.getD x) := by
    rw [← List.headD_eq_head?_getD]; exact hzn
  have hzp2 : ¬(z = r1.getLast?.getD x) := by
    rw [← List.getLastD_eq_getLast?]; exact hzp
  ext
  · simp [intrusive_list.remove_self_from_list, setPrev_next, setNext_next,
      setPrev_prev, setNext_prev, deref, hxnext, hxprev, hzx, hzn2, hzp2]
  · simp [intrusive_list.remove_self_from_list, setPrev_next, setNext_next,
      setPrev_prev, setNext_prev, deref, hxnext, hxprev, hzx, hzn2, hzp2]

/-- _list_add only writes the inserted node and the two given neighbours. -/
theorem _list_add_writes (h : Heap) (new_ prev next : Nat) :
    ∀ z, ¬(z = new_) → ¬(z = prev) → ¬(z = next) →
      intrusive_list.internal._list_add h new_ prev next z = h z := by
  intro z h1 h2 h3
  ext
  · simp [intrusive_list.internal._list_add, setPrev_next, setNext_next,
      setPrev_prev, setNext_prev, h1, h2, h3]
  · simp [intrusive_list.internal._list_add, setPrev_next, setNext_next,
      setPrev_prev, setNext_prev, h1, h2, h3]

/-- __list_del (include/list/list.h) splices the neighbours `p` and `n` of a
ring node together: `p :: e :: rest` becomes `p :: rest` (the links of `e`
itself are left stale). -/
theorem __list_del_ring {h : Heap} {p e n : Nat} {rest : List Nat}
    (hr : isRing h (p :: e :: rest)) (hn : (h e).next = some n) :
    isRing (list.__list_del h p n) (p :: rest) := by
  have hrot : isRing h (e :: (rest ++ [p])) := by
    have := isRing_rotate [p] (e :: rest) (by simpa using hr)
    simpa using this
  have hnv : n = rest.headD p := by
    have h1 := isRing_next_head hrot
    rw [hn, headD_append_singleton rest p e] at h1
    exact Option.some_injective _ h1
  have hnd := hr.1
  have hpe : ¬(p = e) := by
    intro he; rw [List.nodup_cons] at hnd; exact hnd.1 (by simp [he])
  have hep : ¬(e = p) := fun he => hpe he.symm
  have hen : ¬(e = n) := by
    intro he
    rw [List.nodup_cons] at hnd
    have hnd2 := hnd.2
    rw [List.nodup_cons] at hnd2
    rw [hnv] at he
    cases rest with
    | nil =>
      exact hep (by simpa using he)
    | cons a t =>
      have hea : e = a := by simpa using he
      exact hnd2.1 (by simp [hea])
  have hne : ¬(n = e) := fun he => hen he.symm
  set h' := list.__list_del h p n with hh'
  refine detach_core h h' p [e] rest (by simpa using hr) ?_ ?_ ?_ ?_
  · rw [← hnv]
    simp [hh', list.__list_del, setNext_next]
  · rw [← hnv]
    simp [hh', list.__list_del, setNext_prev, setPrev_prev]
  · intro z hzmem hzp hzs
    have hzp' : ¬(z = p) := hzp
    simp [hh', list.__list_del, setNext_next, setPrev_next, hzp']
  · intro z hzmem hzn hzs
    rw [← hnv] at hzn
    have hzn' : ¬(z = n) := hzn
    simp [hh', list.__list_del, setNext_prev, setPrev_prev, hzn']

/-- internal::list_move_tail moves the member `x` of one ring to the back of
another, disjoint ring: both rings survive, `x` now last in the second. -/
theorem list_move_tail_rings {h : Heap} {x hd2 : Nat} {r1 l2rest : List Nat}
    (hr1 : isRing h (x :: r1)) (hr2 : isRing h (hd2 :: l2rest))
    (hdisj : ∀ z ∈ x :: r1, z ∉ hd2 :: l2rest) :
    isRing (intrusive_list.internal.list_move_tail h x hd2) r1 ∧
      isRing (intrusive_list.internal.list_move_tail h x hd2)
        (hd2 :: (l2rest ++ [x])) := by
  set h1 := intrusive_list.remove_self_from_list h x with hh1
  obtain ⟨hrem, hdet⟩ := remove_self_front_ring hr1
  have hframe2 : isRing h1 (hd2 :: l2rest) :=
    isRing_congr (fun z hz => remove_self_writes hr1 z
      (fun hmem => hdisj z hmem hz)) hr2
  have hx2 : x ∉ hd2 :: l2rest := hdisj x (by simp)
  have heq : intrusive_list.internal.list_move_tail h x hd2
      = intrusive_list.internal.list_add_tail h1 x hd2 := rfl
  rw [heq]
  refine ⟨?_, list_add_tail_ring hframe2 hx2⟩
  have hq2 : deref (h1 hd2).prev = l2rest.getLastD hd2 := by
    rw [isRing_prev_head hframe2]; rfl
  have heq2 : intrusive_list.internal.list_add_tail h1 x hd2
      = intrusive_list.internal._list_add h1 x (l2rest.getLastD hd2) hd2 := by
    rw [intrusive_list.internal.list_add_tail, hq2]
  rw [heq2]
  refine isRing_congr ?_ hrem
  intro z hz
  have hnd1 := hr1.1
  rw [List.nodup_cons] at hnd1
  have hzx : ¬(z = x) := fun he => hnd1.1 (he ▸ hz)
  have hzl2 : z ∉ hd2 :: l2rest := hdisj z (List.mem_cons_of_mem x hz)
  have hzhd2 : ¬(z = hd2) := fun he => hzl2 (by simp [he])
  have hzq : ¬(z = l2rest.getLastD hd2) :=
    fun he => hzl2 (he ▸ List.getLastD_mem_cons l2rest hd2)
  exact _list_add_writes h1 x (l2rest.getLastD hd2) hd2 z hzx hzq hzhd2

/-- internal::list_rotate_left advances the ring by one element: a no-op on
the empty list, otherwise the front element moves to the back. -/
theorem list_rotate_left_ring {h : Heap} {hd : Nat} {es : List Nat}
    (hr : isRing h (hd :: es)) :
    isRing (intrusive_list.internal.list_rotate_left h hd) (hd :: es.rotate 1) := by
  cases es with
  | nil =>
    have hn : (h hd).next = some hd := by simpa using isRing_next_head hr
    have : intrusive_list.internal.list_rotate_left h hd = h := by
      simp [intrusive_list.internal.list_rotate_left,
        intrusive_list.internal.list_empty, hn]
    rw [this]
    simpa using hr
  | cons f ft =>
    have hn : (h hd).next = some f := by simpa using isRing_next_head hr
    have hnd := hr.1
    rw [List.nodup_cons] at hnd
    have hhdf : ¬(hd = f) := fun he => hnd.1 (by simp [he])
    have hfhd : ¬(f = hd) := fun he => hhdf he.symm
    have hne : intrusive_list.internal.list_empty h hd = false := by
      simp [intrusive_list.internal.list_empty, hn, hfhd]
    have hstep : intrusive_list.internal.list_rotate_left h hd
        = intrusive_list.internal.list_move_tail h f hd := by
      rw [intrusive_list.internal.list_rotate_left]
      rw [hne]
      simp [hn, deref]
    rw [hstep]
    have hrotf : isRing h (f :: (ft ++ [hd])) := by
      have := isRing_rotate [hd] (f :: ft) (by simpa using hr)
      simpa using this
    obtain ⟨hrem, hdet⟩ := remove_self_front_ring hrotf
    have hrem2 : isRing (intrusive_list.remove_self_from_list h f) (hd :: ft) := by
      have := isRing_rotate ft [hd] hrem
      simpa using this
    have hf2 : f ∉ hd :: ft := by
      intro hm
      rcases List.mem_cons.mp hm with h1 | h1
      · exact hhdf h1.symm
      · have hnd2 := hnd.2
        rw [List.nodup_cons] at hnd2
        exact hnd2.1 h1
    have := list_add_tail_ring hrem2 hf2
    have hrot1 : (f :: ft).rotate 1 = ft ++ [f] := by
      rw [List.rotate_cons_succ, List.rotate_zero]
    rw [hrot1]
    exact this

theorem headD_irrel {l : List Nat} (hne : l ≠ []) (a b : Nat) :
    l.headD a = l.headD b := by
  cases l with
  | nil => exact absurd rfl hne
  | cons x t => rfl

theorem getLastD_irrel {l : List Nat} (hne : l ≠ []) (a b : Nat) :
    l.getLastD a = l.getLastD b := by
  cases l with
  | nil => exact absurd rfl hne
  | cons x t => rw [List.getLastD_cons, List.getLastD_cons]

/-- list_splice joins the non-empty donor ring `L :: s` into the ring
`hd :: r` right after `hd`: the receiving ring becomes `hd :: s ++ r`
(the donor head's links are left stale). -/
theorem list_splice_ring {h : Heap} {L hd : Nat} {s r : List Nat}
    (hrs : isRing h (L :: s)) (hsne : s ≠ [])
    (hrr : isRing h (hd :: r))
    (hdisj : ∀ z ∈ L :: s, z ∉ hd :: r) :
    isRing (list.list_splice h L hd) (hd :: (s ++ r)) := by
  have hLnext : (h L).next = some (s.headD L) := isRing_next_head hrs
  have hLprev : (h L).prev = some (s.getLastD L) := isRing_prev_head hrs
  have hfs : s.headD L ∈ s := by
    cases s with
    | nil => exact absurd rfl hsne
    | cons a t => simp
  have hls : s.getLastD L ∈ s := by
    cases s with
    | nil => exact absurd rfl hsne
    | cons a t => rw [List.getLastD_cons]; exact List.getLastD_mem_cons t a
  have hfhd : ¬(s.headD L = L) := by
    intro he
    have hnd := hrs.1
    rw [List.nodup_cons] at hnd
    exact hnd.1 (he ▸ hfs)
  have hfhd' : ¬(s.head?.getD L = L) := by
    rw [← List.headD_eq_head?_getD]; exact hfhd
  have hguard : list.list_empty h L = false := by
    simp [list.list_empty, hLnext, hfhd']
  have hnxt : (h hd).next = some (r.headD hd) := isRing_next_head hrr
  have hstep : list.list_splice h L hd
      = list.__list_splice h L hd (r.headD hd) := by
    rw [list.list_splice, hguard]
    simp [hnxt, deref]
  rw [hstep]
  set f := s.headD L with hf
  set lst := s.getLastD L with hlst
  set nxt := r.headD hd with hnxtd
  have hnxtmem : nxt ∈ hd :: r := headD_mem_cons r hd
  have hfnr : ¬(f = nxt) := fun he => hdisj f (by simp [hfs]) (he ▸ hnxtmem)
  have hfhd2 : ¬(f = hd) := fun he => hdisj f (by simp [hfs]) (by simp [he])
  have hhdlst : ¬(hd = lst) :=
    fun he => hdisj lst (by simp [hls]) (by simp [he.symm])
  have hlsthd : ¬(lst = hd) := fun he => hhdlst he.symm
  have hlstnxt : ¬(lst = nxt) :=
    fun he => hdisj lst (by simp [hls]) (he ▸ hnxtmem)
  have hnxtlst : ¬(nxt = lst) := fun he => hlstnxt he.symm
  have hnxtf : ¬(nxt = f) := fun he => hfnr he.symm
  have hhdf : ¬(hd = f) := fun he => hfhd2 he.symm
  set h' := list.__list_splice h L hd nxt with hh'
  have hexpand : h' = setPrev (setNext (setNext (setPrev h f (some hd)) hd
      (some f)) lst (some nxt)) nxt (some lst) := by
    rw [hh', list.__list_splice]
    simp [hLnext, hLprev, deref, hf, hlst]
  have w1 : (h' hd).next = some f := by
    rw [hexpand]
    simp [setPrev_next, setNext_next, hhdlst]
  have w2 : (h' f).prev = some hd := by
    rw [hexpand]
    simp [setPrev_prev, setNext_prev, hfnr]
  have w3 : (h' lst).next = some nxt := by
    rw [hexpand]
    simp [setPrev_next, setNext_next]
  have w4 : (h' nxt).prev = some lst := by
    rw [hexpand]
    simp [setPrev_prev]
  have fnall : ∀ z, ¬(z = hd) → ¬(z = lst) → (h' z).next = (h z).next := by
    intro z h1 h2
    rw [hexpand]
    simp [setPrev_next, setNext_next, h1, h2]
  have fpall : ∀ z, ¬(z = f) → ¬(z = nxt) → (h' z).prev = (h z).prev := by
    intro z h1 h2
    rw [hexpand]
    simp [setPrev_prev, setNext_prev, h1, h2]
  have hchains : List.Chain' (linked h) s := by
    have hc := isRing_chain hrs
    refine List.Chain'.infix hc ⟨[L], [L], by simp⟩
  have hnds : s.Nodup := (List.nodup_cons.mp hrs.1).2
  cases r with
  | nil =>
    have hres : isRing h' (hd :: ([] ++ s)) := by
      refine attach_core h h' hd hd [] s hrr rfl hchains hsne hnds
        ?_ ?_ ?_ ?_ ?_ ?_ ?_
      · intro z hz
        exact hdisj z (by simp [hz])
      · rw [headD_irrel hsne hd L]
        exact w1
      · rw [headD_irrel hsne hd L]
        exact w2
      · rw [getLastD_irrel hsne hd L]
        exact w3
      · rw [getLastD_irrel hsne hd L]
        exact w4
      · intro z hzmem h1 h2
        rw [getLastD_irrel hsne hd L] at h2
        exact fnall z h1 h2
      · intro z hzmem h1 h2
        rw [headD_irrel hsne hd L] at h1
        exact fpall z h1 h2
    simpa using hres
  | cons r0 rt =>
    have hrot : isRing h (r0 :: (rt ++ [hd])) := by
      have := isRing_rotate [hd] (r0 :: rt) (by simpa using hrr)
      simpa using this
    have hq : hd = (rt ++ [hd]).getLastD r0 :=
      (getLastD_append_singleton rt hd r0).symm
    have hnxtr0 : nxt = r0 := rfl
    have hres : isRing h' (r0 :: ((rt ++ [hd]) ++ s)) := by
      refine attach_core h h' r0 hd (rt ++ [hd]) s hrot hq hchains hsne hnds
        ?_ ?_ ?_ ?_ ?_ ?_ ?_
      · intro z hz hmem
        have hmem2 : z ∈ hd :: r0 :: rt := by
          simp at hmem ⊢
          tauto
        exact hdisj z (by simp [hz]) hmem2
      · rw [headD_irrel hsne r0 L]
        exact w1
      · rw [headD_irrel hsne r0 L]
        exact w2
      · rw [getLastD_irrel hsne r0 L]
        exact w3
      · rw [getLastD_irrel hsne r0 L]
        exact w4
      · intro z hzmem h1 h2
        rw [getLastD_irrel hsne r0 L] at h2
        exact fnall z h1 h2
      · intro z hzmem h1 h2
        rw [headD_irrel hsne r0 L] at h1
        exact fpall z h1 h2
    have := isRing_rotate (r0 :: rt) (hd :: s) (by simpa using hres)
    simpa using this

theorem headD_append_cons (ys : List Nat) (hd : Nat) (xs : List Nat) (d : Nat) :
    (ys ++ hd :: xs).headD d = ys.headD hd := by
  cases ys <;> rfl

theorem headD_ne_getLastD_of_nodup (a b : Nat) (t : List Nat) (d d' : Nat)
    (hnd : (a :: b :: t).Nodup) :
    (a :: b :: t).headD d ≠ (a :: b :: t).getLastD d' := by
  intro he
  have h1 : (a :: b :: t).getLastD d' = t.getLastD b := by
    rw [List.getLastD_cons, List.getLastD_cons]
  have h2 : t.getLastD b ∈ b :: t := List.getLastD_mem_cons t b
  rw [List.nodup_cons] at hnd
  have ha : a = t.getLastD b := by
    have : (a :: b :: t).headD d = a := rfl
    rw [this] at he
    rw [he, h1]
  exact hnd.1 (ha ▸ h2)

/-- list_cut_position moves the initial run `xs ++ [e]` of the ring
`hd :: xs ++ e :: ys` (up to and including the member `e`) onto the fresh
head `L`: afterwards `L :: xs ++ [e]` and `hd :: ys` are both rings. -/
theorem list_cut_position_ring {h : Heap} {L hd e : Nat} {xs ys : List Nat}
    (hr : isRing h (hd :: (xs ++ e :: ys))) (hL : L ∉ hd :: (xs ++ e :: ys)) :
    isRing (list.list_cut_position h L hd e) (L :: (xs ++ [e])) ∧
      isRing (list.list_cut_position h L hd e) (hd :: ys) := by
  have hndall := hr.1
  have hLhd : ¬(L = hd) := fun he => hL (by simp [he])
  have hLe : ¬(L = e) := fun he => hL (by simp [he])
  have hLxs : L ∉ xs := fun hm => hL (by simp [hm])
  have hLys : L ∉ ys := fun hm => hL (by simp [hm])
  have hehd : ¬(e = hd) := by
    intro he
    rw [List.nodup_cons] at hndall
    exact hndall.1 (by simp [← he])
  have hhde : ¬(hd = e) := fun he => hehd he.symm
  obtain ⟨fst, hfst⟩ : ∃ v, xs.headD e = v := ⟨_, rfl⟩
  obtain ⟨n, hn⟩ : ∃ v, ys.headD hd = v := ⟨_, rfl⟩
  have hnext : (h hd).next = some fst := by
    rw [isRing_next_head hr, headD_append_cons xs e ys hd, hfst]
  have hfst_mem_seg : fst ∈ xs ++ [e] := by
    rw [← hfst]; cases xs with
    | nil => simp
    | cons a t => simp
  have hfst_mem : fst ∈ xs ++ e :: ys := by
    rw [← hfst]; cases xs with
    | nil => simp
    | cons a t => simp
  have hfsthd : ¬(fst = hd) := by
    intro he'
    rw [List.nodup_cons] at hndall
    exact hndall.1 (he' ▸ hfst_mem)
  have hguard1 : list.list_empty h hd = false := by
    simp [list.list_empty, hnext, hfsthd]
  obtain ⟨Q, hQ⟩ : ∃ v, (xs ++ e :: ys).getLastD hd = v := ⟨_, rfl⟩
  have hprev : (h hd).prev = some Q := by
    rw [isRing_prev_head hr, hQ]
  have hguard2 : (list.list_is_singular h hd
      && !((h hd).next == some e) && !((hd : Nat) == e)) = false := by
    by_cases hxy : xs = [] ∧ ys = []
    · obtain ⟨hx0, hy0⟩ := hxy
      subst hx0; subst hy0
      have hfe : fst = e := by rw [← hfst]; rfl
      have : (h hd).next = some e := by rw [hnext, hfe]
      simp [this]
    · have h2elem : ∃ a b t, xs ++ e :: ys = a :: b :: t := by
        cases xs with
        | nil =>
          cases ys with
          | nil => exact absurd ⟨rfl, rfl⟩ hxy
          | cons y0 yt => exact ⟨e, y0, yt, rfl⟩
        | cons x0 xt =>
          cases hxt : xt ++ e :: ys with
          | nil => simp at hxt
          | cons b t => exact ⟨x0, b, t, by simp [hxt]⟩
      obtain ⟨a, b, t, habt⟩ := h2elem
      have hnd2 : (a :: b :: t).Nodup := by
        have := (List.nodup_cons.mp hndall).2
        rwa [habt] at this
      have hne2 : ¬(fst = Q) := by
        rw [← hfst, ← hQ]
        have hx2 : xs.headD e = (xs ++ e :: ys).headD hd := by
          rw [headD_append_cons xs e ys hd]
        rw [hx2, habt]
        exact headD_ne_getLastD_of_nodup a b t hd hd hnd2
      have hsing : list.list_is_singular h hd = false := by
        simp [list.list_is_singular, list.list_empty, hnext, hprev,
          hfsthd, hne2]
      simp [hsing]
  have hstep : list.list_cut_position h L hd e
      = list.__list_cut_position h L hd e := by
    rw [list.list_cut_position, hguard1]
    simp only [Bool.false_eq_true, if_false]
    rw [hguard2]
    simp only [Bool.false_eq_true, if_false]
    have : ((e : Nat) == hd) = false := by simp [hehd]
    rw [this]
    simp
  rw [hstep]
  have hrot_e : isRing h (e :: (ys ++ hd :: xs)) := by
    have := isRing_rotate (hd :: xs) (e :: ys) (by simpa using hr)
    simpa using this
  have henext : (h e).next = some n := by
    rw [isRing_next_head hrot_e, headD_append_cons ys hd xs e, hn]
  have hn_mem : n ∈ hd :: ys := by
    rw [← hn]; exact headD_mem_cons ys hd
  have hdisj_seg : ∀ z ∈ xs ++ [e], z ∉ hd :: ys := by
    intro z hz hmem
    rcases List.mem_cons.mp hmem with h1 | h1
    · rw [List.nodup_cons] at hndall
      apply hndall.1
      rw [← h1]
      rcases List.mem_append.mp hz with h2 | h2
      · exact List.mem_append.mpr (Or.inl h2)
      · have : z = e := by simpa using h2
        rw [this]; simp
    · have hnd2 := (List.nodup_cons.mp hndall).2
      rw [List.nodup_append] at hnd2
      rcases List.mem_append.mp hz with h2 | h2
      · exact hnd2.2.2 h2 (List.mem_cons_of_mem e h1)
      · have hze : z = e := by simpa using h2
        have hnd3 := hnd2.2.1
        rw [List.nodup_cons] at hnd3
        exact hnd3.1 (hze ▸ h1)
  have he_seg : e ∈ xs ++ [e] := by simp
  have hfstn : ¬(fst = n) :=
    fun he' => hdisj_seg fst hfst_mem_seg (he' ▸ hn_mem)
  have hen : ¬(e = n) := fun he' => hdisj_seg e he_seg (he' ▸ hn_mem)
  have hLfst : ¬(L = fst) := fun he' => hL (by simp [he' ▸ hfst_mem])
  have hfstL : ¬(fst = L) := fun he' => hLfst he'.symm
  have hLn : ¬(L = n) := by
    intro he'
    rcases List.mem_cons.mp (he' ▸ hn_mem) with h1 | h1
    · exact hLhd h1
    · exact hLys h1
  set h' := list.__list_cut_position h L hd e with hh'
  have hexpand : h' = setPrev (setNext (setNext (setPrev (setPrev
      (setNext h L (some fst)) fst (some L)) L (some e)) e (some L)) hd
      (some n)) n (some hd) := by
    rw [hh', list.__list_cut_position]
    simp [hnext, henext, deref, setNext_next]
  have w1L : (h' L).next = some fst := by
    rw [hexpand]
    simp [setPrev_next, setNext_next, hLhd, hLe]
  have w2fst : (h' fst).prev = some L := by
    rw [hexpand]
    simp [setPrev_prev, setNext_prev, hfstn, hfstL]
  have w3e : (h' e).next = some L := by
    rw [hexpand]
    simp [setPrev_next, setNext_next, hehd]
  have w4L : (h' L).prev = some e := by
    rw [hexpand]
    simp [setPrev_prev, setNext_prev, hLn]
  have whd : (h' hd).next = some n := by
    rw [hexpand]
    simp [setPrev_next, setNext_next]
  have wn : (h' n).prev = some hd := by
    rw [hexpand]
    simp [setPrev_prev]
  have fnz : ∀ z, ¬(z = L) → ¬(z = e) → ¬(z = hd) →
      (h' z).next = (h z).next := by
    intro z h1 h2 h3
    rw [hexpand]
    simp [setPrev_next, setNext_next, h1, h2, h3]
  have fpz : ∀ z, ¬(z = n) → ¬(z = L) → ¬(z = fst) →
      (h' z).prev = (h z).prev := by
    intro z h1 h2 h3
    rw [hexpand]
    simp [setPrev_prev, setNext_prev, h1, h2, h3]
  have hseg_sub : (xs ++ [e]).Sublist (xs ++ e :: ys) :=
    List.Sublist.append (List.Sublist.refl xs) ((List.nil_sublist ys).cons₂ e)
  have hnd_seg : (xs ++ [e]).Nodup :=
    List.Nodup.sublist hseg_sub (List.nodup_cons.mp hndall).2
  have hL_seg : L ∉ xs ++ [e] := by
    intro hm
    rcases List.mem_append.mp hm with h1 | h1
    · exact hLxs h1
    · exact hLe (by simpa using h1)
  have hchain_seg : List.Chain' (linked h) (xs ++ [e]) := by
    have hc := isRing_chain hr
    refine List.Chain'.infix hc ⟨[hd], ys ++ [hd], by simp⟩
  constructor
  · -- the cut-off run on the fresh head L
    refine wrap_core h h' L (xs ++ [e]) hchain_seg (by simp) hnd_seg hL_seg
      ?_ ?_ ?_ ?_ ?_ ?_
    · rw [headD_append_singleton xs e L, hfst]
      exact w1L
    · rw [headD_append_singleton xs e L, hfst]
      exact w2fst
    · rw [getLastD_append_singleton xs e L]
      exact w3e
    · rw [getLastD_append_singleton xs e L]
      exact w4L
    · intro z hz h1 h2
      rw [getLastD_append_singleton xs e L] at h2
      refine fnz z h1 h2 ?_
      intro he'
      exact hdisj_seg z hz (by simp [he'])
    · intro z hz h1 h2
      rw [headD_append_singleton xs e L, hfst] at h2
      refine fpz z ?_ h1 h2
      intro he'
      exact hdisj_seg z hz (he' ▸ hn_mem)
  · -- the remaining ring hd :: ys
    have hr2 : isRing h (hd :: ((xs ++ [e]) ++ ys)) := by
      have heq : (xs ++ [e]) ++ ys = xs ++ e :: ys := by simp
      rw [heq]
      exact hr
    refine detach_core h h' hd (xs ++ [e]) ys hr2 ?_ ?_ ?_ ?_
    · rw [hn]; exact whd
    · rw [hn]; exact wn
    · intro z hzmem h1 h2
      refine fnz z ?_ ?_ h1
      · intro he'
        refine hL ?_
        rw [← he']
        rcases List.mem_cons.mp hzmem with h3 | h3
        · exact List.mem_cons.mpr (Or.inl h3)
        · exact List.mem_cons.mpr (Or.inr (by simp [h3]))
      · intro he'
        exact h2 (by simp [he'])
    · intro z hzmem h1 h2
      rw [hn] at h1
      refine fpz z h1 ?_ ?_
      · intro he'
        refine hL ?_
        rw [← he']
        rcases List.mem_cons.mp hzmem with h3 | h3
        · exact List.mem_cons.mpr (Or.inl h3)
        · exact List.mem_cons.mpr (Or.inr (by simp [h3]))
      · intro he'
        exact h2 (he' ▸ hfst_mem_seg)

theorem getLastD_append_cons (A : List Nat) (H : Nat) (ys : List Nat) (d : Nat) :
    (A ++ H :: ys).getLastD d = ys.getLastD H := by
  induction A generalizing d with
  | nil => rw [List.nil_append, List.getLastD_cons]
  | cons a t ih => rw [List.cons_append, List.getLastD_cons, ih]

/-- The last node of a non-empty ring points forward to the head. -/
theorem isRing_next_last {h : Heap} {a : Nat} {l : List Nat}
    (hr : isRing h (a :: l)) : (h (l.getLastD a)).next = some a := by
  have hc := isRing_chain hr
  have hsplit : List.Chain' (linked h) ((a :: l) ++ [a]) := by simpa using hc
  rw [List.chain'_append] at hsplit
  have := hsplit.2.2 (l.getLastD a) (by rw [getLast?_cons_eq]; rfl) a rfl
  exact this.1

/-- Core of list_bulk_move_tail: once the six writes have been resolved to
the canonical update sequence (with `p` the node before the run, `n` the node
after it and `q` the last node of the ring once the run is taken out), the
run `r` ends up moved to the back of the ring. -/
theorem bulk_core (h : Heap) (H p n q f l : Nat) (ys r zs : List Nat)
    (hr : isRing h (H :: (ys ++ r ++ zs)))
    (hf : r.head? = some f) (hl : r.getLast? = some l)
    (hp : p = ys.getLastD H) (hn : n = zs.headD H)
    (hq : q = (ys ++ zs).getLastD H)
    (h' : Heap)
    (hexp : h' = setPrev (setNext (setPrev (setNext (setPrev (setNext h p
      (some n)) n (some p)) q (some f)) f (some q)) l (some H)) H (some l)) :
    isRing h' (H :: (ys ++ zs ++ r)) := by
  obtain ⟨f0, r', rfl⟩ : ∃ f0 r', r = f0 :: r' := by
    cases r with
    | nil => simp at hf
    | cons f0 r' => exact ⟨f0, r', rfl⟩
  have hfv : f = f0 := by simpa using hf.symm
  subst hfv
  have hlv : l = r'.getLastD f := by
    rw [getLast?_cons_eq] at hl
    simpa using hl.symm
  have hndall := hr.1
  have hnd_elems := (List.nodup_cons.mp hndall).2
  have hH_elems := (List.nodup_cons.mp hndall).1
  have hdisj_r : ∀ z ∈ f :: r', z ∉ H :: (ys ++ zs) := by
    intro z hz hmem
    have hz_elems : z ∈ ys ++ f :: r' ++ zs := by
      rcases List.mem_cons.mp hz with h1 | h1
      · simp [h1]
      · simp [h1]
    rcases List.mem_cons.mp hmem with h1 | h1
    · exact hH_elems (h1 ▸ hz_elems)
    · have hnd2 : (ys ++ ((f :: r') ++ zs)).Nodup := by
        simpa [List.append_assoc] using hnd_elems
      rw [List.nodup_append] at hnd2
      rcases List.mem_append.mp h1 with h2 | h2
      · exact hnd2.2.2 h2 (List.mem_append.mpr (Or.inl hz))
      · have hnd3 := hnd2.2.1
        rw [List.nodup_append] at hnd3
        exact hnd3.2.2 hz h2
  have hl_mem : l ∈ f :: r' := by rw [hlv]; exact List.getLastD_mem_cons r' f
  have hf_mem : f ∈ f :: r' := by simp
  have hp_mem : p ∈ H :: ys := by rw [hp]; exact List.getLastD_mem_cons ys H
  have hn_mem : n ∈ H :: zs := by rw [hn]; exact headD_mem_cons zs H
  have hq_mem : q ∈ H :: (ys ++ zs) := by
    rw [hq]; exact List.getLastD_mem_cons (ys ++ zs) H
  have hmem_up : ∀ z, z ∈ H :: ys → z ∈ H :: (ys ++ zs) := by
    intro z hz
    rcases List.mem_cons.mp hz with h1 | h1
    · simp [h1]
    · simp [h1]
  have hmem_up2 : ∀ z, z ∈ H :: zs → z ∈ H :: (ys ++ zs) := by
    intro z hz
    rcases List.mem_cons.mp hz with h1 | h1
    · simp [h1]
    · simp [h1]
  have hlp : ¬(l = p) := fun he => hdisj_r l hl_mem (he ▸ hmem_up p hp_mem)
  have hln : ¬(l = n) := fun he => hdisj_r l hl_mem (he ▸ hmem_up2 n hn_mem)
  have hlq : ¬(l = q) := fun he => hdisj_r l hl_mem (he ▸ hq_mem)
  have hql : ¬(q = l) := fun he => hlq he.symm
  have hfp : ¬(f = p) := fun he => hdisj_r f hf_mem (he ▸ hmem_up p hp_mem)
  have hfn : ¬(f = n) := fun he => hdisj_r f hf_mem (he ▸ hmem_up2 n hn_mem)
  have hfq : ¬(f = q) := fun he => hdisj_r f hf_mem (he ▸ hq_mem)
  have hfH : ¬(f = H) := fun he => hdisj_r f hf_mem (by simp [he])
  have hlH : ¬(l = H) := fun he => hdisj_r l hl_mem (by simp [he])
  have hHl : ¬(H = l) := fun he => hlH he.symm
  have hfl_or : f = l ∨ ¬(f = l) := em _
  -- stage A: the two splicing writes detach the run from the ring
  set h2 := setPrev (setNext h p (some n)) n (some p) with hh2
  have hA : isRing h2 ((H :: ys) ++ zs) := by
    have hsplitHys : (H :: ys).dropLast ++ [p] = H :: ys := by
      rw [hp]; exact dropLast_concat_getLastD H ys
    have hrot : isRing h (p :: ((f :: r') ++ (zs ++ (H :: ys).dropLast))) := by
      have h1 : isRing h (((H :: ys).dropLast ++ [p]) ++ ((f :: r') ++ zs)) := by
        rw [hsplitHys]
        simpa using hr
      have h2r := isRing_rotate ((H :: ys).dropLast) ([p] ++ ((f :: r') ++ zs))
        (by simpa using h1)
      simpa using h2r
    have hheq : (zs ++ (H :: ys).dropLast).headD p = n := by
      rw [hn]
      cases zs with
      | cons z0 zt => rfl
      | nil =>
        cases hys : ys with
        | nil => simp [hp, hys]
        | cons y0 yt => simp [hp, hys]
    have hdet := detach_core h h2 p (f :: r') (zs ++ (H :: ys).dropLast)
      hrot (by rw [hheq]; simp [hh2, setPrev_next, setNext_next])
      (by rw [hheq]; simp [hh2, setPrev_prev])
      ?_ ?_
    · have hrot2 := isRing_rotate ([p] ++ zs) ((H :: ys).dropLast)
        (by simpa using hdet)
      have : ((H :: ys).dropLast ++ ([p] ++ zs)) = ((H :: ys) ++ zs) := by
        rw [← List.append_assoc, hsplitHys]
      rwa [this] at hrot2
    · intro z hzmem hzp hzs
      have hzp' : ¬(z = p) := hzp
      simp [hh2, setPrev_next, setNext_next, hzp']
    · intro z hzmem hzn hzs
      rw [hheq] at hzn
      have hzn' : ¬(z = n) := hzn
      simp [hh2, setPrev_prev, setNext_prev, hzn']
  -- the run keeps its internal chain in h2
  have hchain_r2 : List.Chain' (linked h2) (f :: r') := by
    have hchain_r : List.Chain' (linked h) (f :: r') := by
      have hc := isRing_chain hr
      refine List.Chain'.infix hc ⟨H :: ys, zs ++ [H], by simp⟩
    refine chain_frame h h2 _ ?_ ?_ hchain_r
    · intro x hx
      have hxr : x ∈ f :: r' := (List.dropLast_sublist _).subset hx
      have hxp : ¬(x = p) := fun he => hdisj_r x hxr (he ▸ hmem_up p hp_mem)
      simp [hh2, setPrev_next, setNext_next, hxp]
    · intro x hx
      have hxr : x ∈ f :: r' := List.mem_of_mem_tail hx
      have hxn : ¬(x = n) := fun he => hdisj_r x hxr (he ▸ hmem_up2 n hn_mem)
      simp [hh2, setPrev_prev, setNext_prev, hxn]
  -- stage B: the four attaching writes put the run at the back
  have hB := attach_core h2 h' H q (ys ++ zs) (f :: r') hA
    hq hchain_r2 (by simp)
    (List.Nodup.sublist (by
      have : (f :: r').Sublist (ys ++ (f :: r') ++ zs) := by
        refine List.Sublist.trans ?_ (List.sublist_append_left _ zs)
        exact List.sublist_append_right ys (f :: r')
      exact this) hnd_elems)
    hdisj_r ?_ ?_ ?_ ?_ ?_ ?_
  · simpa using hB
  · have : (f :: r').headD H = f := rfl
    rw [this, hexp]
    simp [setPrev_next, setNext_next, hql]
  · have : (f :: r').headD H = f := rfl
    rw [this, hexp]
    simp [setPrev_prev, setNext_prev, hfH]
  · have : (f :: r').getLastD H = l := by
      rw [List.getLastD_cons, ← hlv]
    rw [this, hexp]
    simp [setPrev_next, setNext_next]
  · have : (f :: r').getLastD H = l := by
      rw [List.getLastD_cons, ← hlv]
    rw [this, hexp]
    simp [setPrev_prev]
  · intro z hzmem hzq hzl
    have hzl' : ¬(z = l) := by
      intro he
      refine hzl ?_
      rw [he, hlv, List.getLastD_cons]
    have hzq' : ¬(z = q) := hzq
    rw [hexp]
    simp [setPrev_next, setNext_next, hzl', hzq']
  · intro z hzmem hzf hzH
    have hzf' : ¬(z = f) := by
      intro he
      exact hzf (by rw [he]; rfl)
    have hzH' : ¬(z = H) := hzH
    rw [hexp]
    simp [setPrev_prev, setNext_prev, hzf', hzH']

theorem nodup_run_disjoint {H : Nat} {ys r zs : List Nat}
    (hnd : (H :: (ys ++ r ++ zs)).Nodup) :
    ∀ z ∈ r, ¬(z = H) ∧ z ∉ ys ∧ z ∉ zs := by
  intro z hz
  rw [List.nodup_cons] at hnd
  have hz_elems : z ∈ ys ++ r ++ zs := by
    simp [List.mem_append, hz]
  refine ⟨?_, ?_, ?_⟩
  · intro he
    exact hnd.1 (he ▸ hz_elems)
  · intro hy
    have hnd2 : (ys ++ (r ++ zs)).Nodup := by
      simpa [List.append_assoc] using hnd.2
    rw [List.nodup_append] at hnd2
    exact hnd2.2.2 hy (List.mem_append.mpr (Or.inl hz))
  · intro hzs
    have hnd2 : (ys ++ (r ++ zs)).Nodup := by
      simpa [List.append_assoc] using hnd.2
    rw [List.nodup_append] at hnd2
    have hnd3 := hnd2.2.1
    rw [List.nodup_append] at hnd3
    exact hnd3.2.2 hz hzs

/-- list_bulk_move_tail moves the contiguous run `r` (from `first` to `last`)
of the ring `H :: ys ++ r ++ zs` to the position just before `H`: the ring
becomes `H :: ys ++ zs ++ r`. -/
theorem list_bulk_move_tail_ring {h : Heap} {H f l : Nat} {ys r zs : List Nat}
    (hr : isRing h (H :: (ys ++ r ++ zs)))
    (hf : r.head? = some f) (hl : r.getLast? = some l) :
    isRing (list.list_bulk_move_tail h H f l) (H :: (ys ++ zs ++ r)) := by
  obtain ⟨f0, r', rfl⟩ : ∃ f0 r', r = f0 :: r' := by
    cases r with
    | nil => simp at hf
    | cons f0 r' => exact ⟨f0, r', rfl⟩
  have hfv : f = f0 := by simpa using hf.symm
  subst hfv
  have hlv : l = r'.getLastD f := by
    rw [getLast?_cons_eq] at hl
    simpa using hl.symm
  obtain ⟨P, hP⟩ : ∃ v, ys.getLastD H = v := ⟨_, rfl⟩
  have hfprev : (h f).prev = some P := by
    have hrot : isRing h (f :: (r' ++ (zs ++ (H :: ys)))) := by
      have := isRing_rotate (H :: ys) ((f :: r') ++ zs) (by simpa using hr)
      simpa using this
    rw [isRing_prev_head hrot]
    have : (r' ++ (zs ++ H :: ys)).getLastD f = ys.getLastD H := by
      have h1 : r' ++ (zs ++ H :: ys) = (r' ++ zs) ++ H :: ys := by
        rw [List.append_assoc]
      rw [h1, getLastD_append_cons]
    rw [this, hP]
  have hdisj := nodup_run_disjoint hr.1
  have hl_mem : l ∈ f :: r' := by rw [hlv]; exact List.getLastD_mem_cons r' f
  have hP_mem : P ∈ H :: ys := by rw [← hP]; exact List.getLastD_mem_cons ys H
  have hlP : ¬(l = P) := by
    intro he
    rcases List.mem_cons.mp (he ▸ hP_mem) with h1 | h1
    · exact (hdisj l hl_mem).1 h1
    · exact (hdisj l hl_mem).2.1 h1
  cases zs with
  | nil =>
    have hlnext : (h l).next = some H := by
      have hr0 : isRing h (H :: (ys ++ f :: r')) := by simpa using hr
      have := isRing_next_last hr0
      have hgl : (ys ++ f :: r').getLastD H = l := by
        rw [getLastD_append_cons, ← hlv]
      rwa [hgl] at this
    have hexp : list.list_bulk_move_tail h H f l
        = setPrev (setNext (setPrev (setNext (setPrev (setNext h P (some H))
            H (some P)) P (some f)) f (some P)) l (some H)) H (some l) := by
      rw [list.list_bulk_move_tail]
      simp [hfprev, hlnext, deref, setNext_next, setNext_prev, setPrev_prev,
        setPrev_next, hlP]
    have hcore := bulk_core h H P H P f l ys (f :: r') [] hr hf hl
      hP.symm rfl (by rw [← hP]; simp) _ hexp
    simpa using hcore
  | cons z0 zt =>
    have hHz0 : ¬(H = z0) := by
      intro he
      have h1 := hr.1
      rw [List.nodup_cons] at h1
      refine h1.1 ?_
      rw [he]
      simp
    have hlnext : (h l).next = some z0 := by
      have hrot : isRing h (z0 :: (zt ++ ((H :: ys) ++ (f :: r')))) := by
        have := isRing_rotate ((H :: ys) ++ (f :: r')) (z0 :: zt)
          (by simpa using hr)
        simpa using this
      have hnl := isRing_next_last hrot
      have hgl : (zt ++ ((H :: ys) ++ f :: r')).getLastD z0 = l := by
        have h1 : zt ++ ((H :: ys) ++ f :: r') = (zt ++ (H :: ys)) ++ f :: r' := by
          rw [List.append_assoc]
        rw [h1, getLastD_append_cons, ← hlv]
      rwa [hgl] at hnl
    obtain ⟨Q, hQ⟩ : ∃ v, (ys ++ z0 :: zt).getLastD H = v := ⟨_, rfl⟩
    have hHprev : (h H).prev = some Q := by
      rw [isRing_prev_head hr]
      rw [getLastD_append_cons (ys ++ f :: r') z0 zt H]
      have hQ2 : zt.getLastD z0 = Q := by
        rw [← getLastD_append_cons ys z0 zt H, hQ]
      rw [hQ2]
    have hexp : list.list_bulk_move_tail h H f l
        = setPrev (setNext (setPrev (setNext (setPrev (setNext h P (some z0))
            z0 (some P)) Q (some f)) f (some Q)) l (some H)) H (some l) := by
      rw [list.list_bulk_move_tail]
      simp [hfprev, hlnext, hHprev, deref, setNext_next, setNext_prev,
        setPrev_prev, setPrev_next, hlP, hHz0]
    have hcore := bulk_core h H P z0 Q f l ys (f :: r') (z0 :: zt) hr hf hl
      hP.symm rfl hQ.symm _ hexp
    exact hcore

/-- pop_front removes the first element of a non-empty list. -/
theorem pop_front_ring {h : Heap} {hd x : Nat} {es : List Nat}
    (hr : isRing h (hd :: x :: es)) :
    isRing (intrusive_list.pop_front h hd) (hd :: es) := by
  have hn : (h hd).next = some x := by simpa using isRing_next_head hr
  have heq : intrusive_list.pop_front h hd
      = intrusive_list.remove_self_from_list h x := by
    rw [intrusive_list.pop_front, hn]
    rfl
  rw [heq]
  exact (remove_self_mid_ring hr).1

/-- pop_back removes the last element of a non-empty list. -/
theorem pop_back_ring {h : Heap} {hd x : Nat} {es : List Nat}
    (hr : isRing h (hd :: (es ++ [x]))) :
    isRing (intrusive_list.pop_back h hd) (hd :: es) := by
  have hp : (h hd).prev = some x := by
    rw [isRing_prev_head hr, getLastD_append_singleton]
  have heq : intrusive_list.pop_back h hd
      = intrusive_list.remove_self_from_list h x := by
    rw [intrusive_list.pop_back, hp]
    rfl
  rw [heq]
  have hrot : isRing h (x :: (hd :: es)) := by
    have := isRing_rotate (hd :: es) [x] (by simpa using hr)
    simpa using this
  exact (remove_self_front_ring hrot).1

/-- An abstract push operation, used to state the deque correspondence for
arbitrary operation sequences. -/
inductive DOp where
  | pushFront : Nat → DOp
  | pushBack : Nat → DOp
deriving DecidableEq, Repr

/-- The address of the element an operation inserts. -/
def DOp.nodeId : DOp → Nat
  | .pushFront x => x
  | .pushBack x => x

/-- Run one operation against the heap (on the list with sentinel `hd`). -/
def applyDOp (hd : Nat) (h : Heap) : DOp → Heap
  | .pushFront x => intrusive_list.push_front h hd x
  | .pushBack x => intrusive_list.push_back h hd x

/-- Run a sequence of operations against the heap. -/
def runOps (hd : Nat) (h : Heap) (ops : List DOp) : Heap :=
  ops.foldl (applyDOp hd) h

/-- The reference double-ended sequence: push_front prepends and push_back
appends. -/
def refStep (es : List Nat) : DOp → List Nat
  | .pushFront x => x :: es
  | .pushBack x => es ++ [x]

/-- Reference deque after a sequence of operations, from a start state. -/
def refDequeFrom (es : List Nat) (ops : List DOp) : List Nat :=
  ops.foldl refStep es

/-- Reference deque after a sequence of operations, from the empty state. -/
def refDeque (ops : List DOp) : List Nat := refDequeFrom [] ops

/-- Running any sequence of pushes of fresh, pairwise distinct elements keeps
the ring invariant and tracks the reference double-ended sequence. -/
theorem runOps_ring (hd : Nat) : ∀ (ops : List DOp) (h : Heap) (es : List Nat),
    isRing h (hd :: es) →
    (∀ op ∈ ops, DOp.nodeId op ∉ hd :: es) →
    (ops.map DOp.nodeId).Nodup →
    isRing (runOps hd h ops) (hd :: refDequeFrom es ops) ∧
      (∀ z ∈ refDequeFrom es ops, z ∈ es ∨ z ∈ ops.map DOp.nodeId)
  | [], h, es, hr, _, _ => ⟨hr, fun _ hz => Or.inl hz⟩
  | op :: ops, h, es, hr, hfresh, hnodup => by
    have hx : DOp.nodeId op ∉ hd :: es := hfresh op (by simp)
    have hstep : isRing (applyDOp hd h op) (hd :: refStep es op) := by
      cases op with
      | pushFront x => exact list_add_ring hr hx
      | pushBack x => exact list_add_tail_ring hr hx
    have hmem_step : ∀ z ∈ refStep es op, z ∈ es ∨ z = DOp.nodeId op := by
      cases op with
      | pushFront x =>
        intro z hz
        rcases List.mem_cons.mp hz with h1 | h1
        · exact Or.inr h1
        · exact Or.inl h1
      | pushBack x =>
        intro z hz
        rcases List.mem_append.mp hz with h1 | h1
        · exact Or.inl h1
        · exact Or.inr (by simpa using h1)
    have hfresh' : ∀ o ∈ ops, DOp.nodeId o ∉ hd :: refStep es op := by
      intro o ho hmem
      rcases List.mem_cons.mp hmem with h1 | h1
      · exact hfresh o (by simp [ho]) (by simp [h1])
      · rcases hmem_step _ h1 with h2 | h2
        · exact hfresh o (by simp [ho]) (by simp [h2])
        · rw [List.map_cons, List.nodup_cons] at hnodup
          exact hnodup.1 (h2 ▸ List.mem_map_of_mem DOp.nodeId ho)
    have hnodup' : (ops.map DOp.nodeId).Nodup := by
      rw [List.map_cons, List.nodup_cons] at hnodup
      exact hnodup.2
    obtain ⟨ih1, ih2⟩ := runOps_ring hd ops (applyDOp hd h op)
      (refStep es op) hstep hfresh' hnodup'
    refine ⟨ih1, ?_⟩
    intro z hz
    rcases ih2 z hz with h1 | h1
    · rcases hmem_step z h1 with h2 | h2
      · exact Or.inl h2
      · exact Or.inr (by simp [h2])
    · exact Or.inr (by simp [h1])

/-- The iterator traversal: starting from a node, follow `next` until the
sentinel is reached (with explicit fuel; any sufficient fuel gives the same
finite result). -/
def traverseFrom (h : Heap) (hd : Nat) : Nat → Nat → List Nat
  | 0, _ => []
  | fuel + 1, cur =>
    if cur = hd then [] else cur :: traverseFrom h hd fuel (deref (h cur).next)

theorem traverseFrom_chain (h : Heap) (hd : Nat) :
    ∀ (l : List Nat) (fuel : Nat),
      List.Chain' (linked h) (l ++ [hd]) → hd ∉ l → l.length ≤ fuel →
      traverseFrom h hd fuel (l.headD hd) = l
  | [], fuel, _, _, _ => by
    cases fuel with
    | zero => rfl
    | succ k => simp [traverseFrom]
  | x :: t, fuel, hc, hhd, hlen => by
    cases fuel with
    | zero => simp at hlen
    | succ k =>
      have hxhd : ¬(x = hd) := fun he => hhd (by simp [he])
      have hchead : (h x).next = some (t.headD hd) := by
        have hc' : List.Chain' (linked h) (x :: (t ++ [hd])) := by
          simpa using hc
        rw [List.chain'_cons'] at hc'
        have hhead : (t ++ [hd]).head? = some (t.headD hd) := by
          cases t with
          | nil => rfl
          | cons a t' => rfl
        exact (hc'.1 (t.headD hd) (by rw [hhead]; rfl)).1
      have hrec := traverseFrom_chain h hd t k
        (by
          have hc' : List.Chain' (linked h) (x :: (t ++ [hd])) := by
            simpa using hc
          exact List.Chain'.tail hc')
        (fun hm => hhd (by simp [hm]))
        (by simpa using hlen)
      simp only [List.headD]
      rw [traverseFrom]
      rw [if_neg hxhd]
      rw [hchead]
      have : deref (some (t.headD hd)) = t.headD hd := rfl
      rw [this, hrec]

/-- In a ring, traversing from `front()` with enough fuel lists exactly the
elements, in ring order. -/
theorem traverseFrom_ring {h : Heap} {hd : Nat} {es : List Nat}
    (hr : isRing h (hd :: es)) (fuel : Nat) (hfuel : es.length ≤ fuel) :
    traverseFrom h hd fuel (intrusive_list.front h hd) = es := by
  have hfront : intrusive_list.front h hd = es.headD hd := by
    rw [intrusive_list.front, isRing_next_head hr]
    rfl
  rw [hfront]
  refine traverseFrom_chain h hd es fuel ?_ ?_ hfuel
  · have hc : List.Chain' (linked h) (hd :: (es ++ [hd])) := by
      simpa using isRing_chain hr
    exact List.Chain'.tail hc
  · exact (List.nodup_cons.mp hr.1).1

/-- erase(it) unlinks the element under the iterator and returns the node
that originally followed it (the sentinel when it was last). -/
theorem erase_ring {h : Heap} {hd x : Nat} {xs ys : List Nat}
    (hr : isRing h (hd :: (xs ++ x :: ys))) :
    (intrusive_list.erase h x).2 = ys.headD hd ∧
      isRing (intrusive_list.erase h x).1 (hd :: (xs ++ ys)) := by
  have hrotx : isRing h (x :: (ys ++ hd :: xs)) := by
    have := isRing_rotate (hd :: xs) (x :: ys) (by simpa using hr)
    simpa using this
  constructor
  · have hn := isRing_next_head hrotx
    rw [intrusive_list.erase]
    simp only
    rw [hn, headD_append_cons ys hd xs x]
    rfl
  · have hrem := (remove_self_front_ring hrotx).1
    have := isRing_rotate ys (hd :: xs) hrem
    have heq : (hd :: xs) ++ ys = hd :: (xs ++ ys) := by simp
    rw [heq] at this
    exact this

/-- Iterating rotate_left k times rotates the element order by k. -/
theorem rotate_iter_ring {h : Heap} {hd : Nat} {es : List Nat}
    (hr : isRing h (hd :: es)) :
    ∀ k, isRing ((fun g => intrusive_list.rotate_left g hd)^[k] h)
      (hd :: es.rotate k)
  | 0 => by simpa using hr
  | k + 1 => by
    have ih := rotate_iter_ring hr k
    have hstep := list_rotate_left_ring ih
    have hrr : (es.rotate k).rotate 1 = es.rotate (k + 1) := by
      rw [List.rotate_rotate]
    rw [Function.iterate_succ_apply']
    rw [← hrr]
    exact hstep

/-- Under the ring invariant, is_singular() is true exactly when one element
is linked. -/
theorem is_singular_iff {h : Heap} {hd : Nat} {es : List Nat}
    (hr : isRing h (hd :: es)) :
    intrusive_list.internal.list_is_singular h hd = true ↔ es.length = 1 := by
  cases es with
  | nil =>
    have hn : (h hd).next = some hd := by simpa using isRing_next_head hr
    simp [intrusive_list.internal.list_is_singular,
      intrusive_list.internal.list_empty, hn]
  | cons a t =>
    have hn : (h hd).next = some a := by simpa using isRing_next_head hr
    have hnd := hr.1
    rw [List.nodup_cons] at hnd
    have hahd : ¬(a = hd) := by
      intro he
      exact hnd.1 (by simp [← he])
    cases t with
    | nil =>
      have hp : (h hd).prev = some a := by simpa using isRing_prev_head hr
      simp [intrusive_list.internal.list_is_singular,
        intrusive_list.internal.list_empty, hn, hp, hahd]
    | cons b t' =>
      have hp : (h hd).prev = some (t'.getLastD b) := by
        have := isRing_prev_head hr
        rw [this, List.getLastD_cons, List.getLastD_cons]
      have halast : ¬(a = t'.getLastD b) := by
        intro he
        have hnd2 := hnd.2
        rw [List.nodup_cons] at hnd2
        exact hnd2.1 (he ▸ List.getLastD_mem_cons t' b)
      have halast2 : ¬(a = t'.getLast?.getD b) := by
        rw [← List.getLastD_eq_getLast?]
        exact halast
      simp [intrusive_list.internal.list_is_singular,
        intrusive_list.internal.list_empty, hn, hp, hahd, halast2]

/-- remove_if_exists is a no-op on a detached node. -/
theorem remove_if_exists_detached {h : Heap} {x : Nat}
    (hn : (h x).next = none) (hp : (h x).prev = none) :
    intrusive_list.remove_if_exists h x = h := by
  simp [intrusive_list.remove_if_exists, intrusive_list.have_container, hn, hp]

/-- remove_if_exists on a linked member unlinks it and leaves it detached. -/
theorem remove_if_exists_member {h : Heap} {x : Nat} {rest : List Nat}
    (hr : isRing h (x :: rest)) :
    isRing (intrusive_list.remove_if_exists h x) rest ∧
      (intrusive_list.remove_if_exists h x) x = ⟨none, none⟩ := by
  have hn := isRing_next_head hr
  have hp := isRing_prev_head hr
  have hcont : intrusive_list.have_container h x = true := by
    simp [intrusive_list.have_container, hn, hp]
  have heq : intrusive_list.remove_if_exists h x
      = intrusive_list.remove_self_from_list h x := by
    rw [intrusive_list.remove_if_exists, hcont]
    simp
  rw [heq]
  exact remove_self_front_ring hr

namespace intrusive_list

/-- Modelled from the spec: include/intrusive_list/forward_list.h is not
among the sources (only its test is), so the singly-linked list of spec
§4.3 is modelled at the level of the sequence of payload values, head
first.  push_front makes its argument the new head (it sets the element's
next to the current head, O(1)). -/
def forward_push_front (l : List Nat) (v : Nat) : List Nat := v :: l

/-- Modelled from the spec: remove_if removes every node satisfying the
predicate in one forward O(n) pass and returns the count removed, handling
removal of the current node while the scan continues; the result pairs the
remaining sequence with that count. -/
def forward_remove_if : List Nat → (Nat → Bool) → List Nat × Nat
  | [], _ => ([], 0)
  | v :: t, p =>
    let r := forward_remove_if t p
    if p v then (r.1, r.2 + 1) else (v :: r.1, r.2)

end intrusive_list

theorem forward_remove_if_eq (p : Nat → Bool) :
    ∀ l, intrusive_list.forward_remove_if l p
      = (l.filter (fun v => !(p v)), (l.filter p).length)
  | [] => rfl
  | v :: t => by
    have ih := forward_remove_if_eq p t
    cases hv : p v <;>
      simp [intrusive_list.forward_remove_if, ih, List.filter, hv]

namespace list

/-- list::list<T, node_field> (include/list/list.h): the non-functional
wrapper class; it stores only the two pointers of its private state. -/
structure list where
  head_ptr_ : Option Nat
  tail_ptr_ : Option Nat
deriving DecidableEq, Repr

/-- list() : head_ptr_(0x0), tail_ptr_(0x0). -/
def list.init : list := ⟨none, none⟩

/-- insert_head(T *elem) { } -/
def list.insert_head (s : list) (elem : Option Nat) : list := s

/-- insert_tail(T *item) { } -/
def list.insert_tail (s : list) (item : Option Nat) : list := s

/-- insert_after(T *item, T *in_list) { } -/
def list.insert_after (s : list) (item in_list : Option Nat) : list := s

/-- insert_before(T *item, T *in_list) { } -/
def list.insert_before (s : list) (item in_list : Option Nat) : list := s

/-- remove_head(): empty body; only the (unchanged) list state is modelled,
the return value of the C++ function is undefined (missing return). -/
def list.remove_head (s : list) : list := s

/-- remove_tail(): empty body; only the (unchanged) list state is modelled. -/
def list.remove_tail (s : list) : list := s

/-- remove(T *item) { } -/
def list.remove (s : list) (item : Option Nat) : list := s

/-- head() { return nullptr; } -/
def list.head (s : list) : Option Nat := none

/-- tail() const { return nullptr; } -/
def list.tail (s : list) : Option Nat := none

/-- next(T *item) { return nullptr; } -/
def list.next (s : list) (item : Option Nat) : Option Nat := none

/-- prev(T *item) { return nullptr; } -/
def list.prev (s : list) (item : Option Nat) : Option Nat := none

/-- clear() { } -/
def list.clear (s : list) : list := s

/-- empty() { return false; } -/
def list.empty (s : list) : Bool := false

end list

theorem refDequeFrom_pushBack :
    ∀ (xs : List Nat) (es : List Nat),
      refDequeFrom es (xs.map DOp.pushBack) = es ++ xs
  | [], es => by simp [refDequeFrom]
  | x :: t, es => by
    have ih := refDequeFrom_pushBack t (es ++ [x])
    simp only [List.map_cons, refDequeFrom, List.foldl_cons] at ih ⊢
    rw [show refStep es (DOp.pushBack x) = es ++ [x] from rfl, ih]
    simp

theorem refDequeFrom_pushFront :
    ∀ (xs : List Nat) (es : List Nat),
      refDequeFrom es (xs.map DOp.pushFront) = xs.reverse ++ es
  | [], es => by simp [refDequeFrom]
  | x :: t, es => by
    have ih := refDequeFrom_pushFront t (x :: es)
    simp only [List.map_cons, refDequeFrom, List.foldl_cons] at ih ⊢
    rw [show refStep es (DOp.pushFront x) = x :: es from rfl, ih]
    simp

theorem map_nodeId_pushBack (xs : List Nat) :
    (xs.map DOp.pushBack).map DOp.nodeId = xs := by
  rw [List.map_map]
  have : DOp.nodeId ∘ DOp.pushBack = id := by
    funext v; rfl
  rw [this, List.map_id]

theorem map_nodeId_pushFront (xs : List Nat) :
    (xs.map DOp.pushFront).map DOp.nodeId = xs := by
  rw [List.map_map]
  have : DOp.nodeId ∘ DOp.pushFront = id := by
    funext v; rfl
  rw [this, List.map_id]

/-- A one-node heap: the sentinel `s` is self-linked (an empty list, as the
list constructor builds it) and every other node is detached. -/
def exEmpty (s : Nat) : Heap :=
  fun j => if j = s then ⟨some s, some s⟩ else ⟨none, none⟩

/-- The concrete ten-element scenario: sentinel 10, elements 0..9 pushed
in order with push_back. -/
def scenarioS1 : Heap := runOps 10 (exEmpty 10) ((List.range 10).map DOp.pushBack)

/-- Then pop_front three times. -/
def scenarioS2 : Heap :=
  intrusive_list.pop_front (intrusive_list.pop_front
    (intrusive_list.pop_front scenarioS1 10) 10) 10

/-- Then pop_back three times. -/
def scenarioS3 : Heap :=
  intrusive_list.pop_back (intrusive_list.pop_back
    (intrusive_list.pop_back scenarioS2 10) 10) 10

/-- An example four-element ring: sentinel 9 with elements 1, 2, 3. -/
def exRing : Heap := fun j =>
  if j = 9 then ⟨some 1, some 3⟩
  else if j = 1 then ⟨some 2, some 9⟩
  else if j = 2 then ⟨some 3, some 1⟩
  else if j = 3 then ⟨some 9, some 2⟩
  else ⟨none, none⟩

/-- C1: every ring operation of the doubly-linked list code preserves the
ring invariant (a cycle visiting every node once with `prev` the inverse of
`next`, stated as `isRing`), under the documented preconditions: insertion
(_list_add between two consecutive nodes, list_add, list_add_tail, of a node
not already a member), removal of a member (remove_self_from_list, which
also detaches the node; __list_del given the member's neighbours), moving a
member to the back of a disjoint list (list_move_tail), rotation
(list_rotate_left), splicing a non-empty disjoint list (list_splice),
cutting an initial run up to a member onto a fresh head (list_cut_position),
and moving a contiguous run of the same list before its head
(list_bulk_move_tail). -/
theorem ring_ops_preserve_invariant :
    (∀ (h : Heap) (p n x : Nat) (rest : List Nat),
        isRing h (p :: rest) → (h p).next = some n → x ∉ p :: rest →
        isRing (intrusive_list.internal._list_add h x p n) (p :: x :: rest))
  ∧ (∀ (h : Heap) (hd x : Nat) (rest : List Nat),
        isRing h (hd :: rest) → x ∉ hd :: rest →
        isRing (intrusive_list.internal.list_add h x hd) (hd :: x :: rest))
  ∧ (∀ (h : Heap) (hd x : Nat) (rest : List Nat),
        isRing h (hd :: rest) → x ∉ hd :: rest →
        isRing (intrusive_list.internal.list_add_tail h x hd)
          (hd :: (rest ++ [x])))
  ∧ (∀ (h : Heap) (x : Nat) (rest : List Nat),
        isRing h (x :: rest) →
        isRing (intrusive_list.remove_self_from_list h x) rest ∧
          (intrusive_list.remove_self_from_list h x) x = ⟨none, none⟩)
  ∧ (∀ (h : Heap) (p e n : Nat) (rest : List Nat),
        isRing h (p :: e :: rest) → (h e).next = some n →
        isRing (list.__list_del h p n) (p :: rest))
  ∧ (∀ (h : Heap) (x hd2 : Nat) (r1 r2 : List Nat),
        isRing h (x :: r1) → isRing h (hd2 :: r2) →
        (∀ z ∈ x :: r1, z ∉ hd2 :: r2) →
        isRing (intrusive_list.internal.list_move_tail h x hd2) r1 ∧
          isRing (intrusive_list.internal.list_move_tail h x hd2)
            (hd2 :: (r2 ++ [x])))
  ∧ (∀ (h : Heap) (hd : Nat) (es : List Nat),
        isRing h (hd :: es) →
        isRing (intrusive_list.internal.list_rotate_left h hd)
          (hd :: es.rotate 1))
  ∧ (∀ (h : Heap) (L hd : Nat) (s r : List Nat),
        isRing h (L :: s) → s ≠ [] → isRing h (hd :: r) →
        (∀ z ∈ L :: s, z ∉ hd :: r) →
        isRing (list.list_splice h L hd) (hd :: (s ++ r)))
  ∧ (∀ (h : Heap) (L hd e : Nat) (xs ys : List Nat),
        isRing h (hd :: (xs ++ e :: ys)) → L ∉ hd :: (xs ++ e :: ys) →
        isRing (list.list_cut_position h L hd e) (L :: (xs ++ [e])) ∧
          isRing (list.list_cut_position h L hd e) (hd :: ys))
  ∧ (∀ (h : Heap) (H f l : Nat) (ys r zs : List Nat),
        isRing h (H :: (ys ++ r ++ zs)) → r.head? = some f →
        r.getLast? = some l →
        isRing (list.list_bulk_move_tail h H f l) (H :: (ys ++ zs ++ r))) :=
  ⟨fun _ _ _ _ _ hr hn hx => _list_add_ring hr hn hx,
   fun _ _ _ _ hr hx => list_add_ring hr hx,
   fun _ _ _ _ hr hx => list_add_tail_ring hr hx,
   fun _ _ _ hr => remove_self_front_ring hr,
   fun _ _ _ _ _ hr hn => __list_del_ring hr hn,
   fun _ _ _ _ _ hr1 hr2 hdisj => list_move_tail_rings hr1 hr2 hdisj,
   fun _ _ _ hr => list_rotate_left_ring hr,
   fun _ _ _ _ _ hrs hsne hrr hdisj => list_splice_ring hrs hsne hrr hdisj,
   fun _ _ _ _ _ _ hr hL => list_cut_position_ring hr hL,
   fun _ _ _ _ _ _ _ hr hf hl => list_bulk_move_tail_ring hr hf hl⟩

theorem ring_ops_preserve_invariant_witness :
    isRing (intrusive_list.internal._list_add (exEmpty 5) 7 5 5) [5, 7] :=
  ring_ops_preserve_invariant.1 (exEmpty 5) 5 5 7 [] (by decide) (by decide)
    (by decide)

/-- C2: owner resolution round trip: for an object at any address `base`,
`owner_of` applied to the address of its embedded member field recovers
`base`; and the byte distance between an object and its field, used by
`offset_of`, is the same constant for all instances. -/
theorem owner_of_round_trip :
    (∀ (base member : Int),
        list.owner_of (list.member_addr base member) member = base)
  ∧ (∀ (b1 b2 member : Int),
        list.member_addr b1 member - b1 = list.member_addr b2 member - b2) := by
  constructor
  · intro base member
    simp [list.owner_of, list.member_addr, list.offset_of]
  · intro b1 b2 member
    simp [list.member_addr]

/-- C3: deque semantics: for every sequence of push_front/push_back of fresh,
pairwise distinct elements starting from an empty list, the ring matches the
reference double-ended sequence and front()/back() are its two ends; and the
concrete scenario: push_back of 0..9 gives front 0 and back 9, then three
pop_front leave front 3, then three pop_back leave back 6 with exactly the
four elements 3,4,5,6 still linked. -/
theorem deque_semantics :
    (∀ (hd : Nat) (h : Heap) (ops : List DOp),
        isRing h [hd] →
        (∀ op ∈ ops, DOp.nodeId op ≠ hd) →
        (ops.map DOp.nodeId).Nodup →
        isRing (runOps hd h ops) (hd :: refDeque ops) ∧
          intrusive_list.front (runOps hd h ops) hd
            = (refDeque ops).headD hd ∧
          intrusive_list.back (runOps hd h ops) hd
            = (refDeque ops).getLastD hd)
  ∧ (intrusive_list.front scenarioS1 10 = 0 ∧
     intrusive_list.back scenarioS1 10 = 9 ∧
     intrusive_list.front scenarioS2 10 = 3 ∧
     intrusive_list.back scenarioS3 10 = 6 ∧
     isRing scenarioS3 [10, 3, 4, 5, 6]) := by
  constructor
  · intro hd h ops hr hfresh hnodup
    obtain ⟨h1, _⟩ := runOps_ring hd ops h [] hr
      (fun op ho hm => hfresh op ho (by simpa using hm)) hnodup
    refine ⟨h1, ?_, ?_⟩
    · rw [intrusive_list.front, isRing_next_head h1]
      rfl
    · rw [intrusive_list.back, isRing_prev_head h1]
      rfl
  · exact ⟨by decide, by decide, by decide, by decide, by decide⟩

theorem deque_semantics_witness :
    isRing (runOps 3 (exEmpty 3) [DOp.pushBack 1, DOp.pushFront 2])
        (3 :: refDeque [DOp.pushBack 1, DOp.pushFront 2]) ∧
      intrusive_list.front
          (runOps 3 (exEmpty 3) [DOp.pushBack 1, DOp.pushFront 2]) 3
        = (refDeque [DOp.pushBack 1, DOp.pushFront 2]).headD 3 ∧
      intrusive_list.back
          (runOps 3 (exEmpty 3) [DOp.pushBack 1, DOp.pushFront 2]) 3
        = (refDeque [DOp.pushBack 1, DOp.pushFront 2]).getLastD 3 :=
  deque_semantics.1 3 (exEmpty 3) [DOp.pushBack 1, DOp.pushFront 2]
    (by decide) (by decide) (by decide)

/-- C4: iteration order: for any N fresh, distinct elements, after N
push_back the traversal from begin() to end() visits them in insertion
order; after N push_front it visits them in reverse insertion order; in
both cases the traversal is finite (independent of any sufficient fuel)
and never yields the sentinel. -/
theorem iteration_order :
    (∀ (hd : Nat) (h : Heap) (xs : List Nat) (fuel : Nat),
        isRing h [hd] → xs.Nodup → hd ∉ xs → xs.length ≤ fuel →
        traverseFrom (runOps hd h (xs.map DOp.pushBack)) hd fuel
          (intrusive_list.front (runOps hd h (xs.map DOp.pushBack)) hd)
          = xs)
  ∧ (∀ (hd : Nat) (h : Heap) (xs : List Nat) (fuel : Nat),
        isRing h [hd] → xs.Nodup → hd ∉ xs → xs.length ≤ fuel →
        traverseFrom (runOps hd h (xs.map DOp.pushFront)) hd fuel
          (intrusive_list.front (runOps hd h (xs.map DOp.pushFront)) hd)
          = xs.reverse) := by
  constructor
  · intro hd h xs fuel hr hnd hhd hfuel
    obtain ⟨h1, _⟩ := runOps_ring hd (xs.map DOp.pushBack) h [] hr
      (by
        intro op ho hm
        have : DOp.nodeId op ∈ xs := by
          rw [← map_nodeId_pushBack xs]
          exact List.mem_map_of_mem DOp.nodeId ho
        rcases List.mem_cons.mp hm with h2 | h2
        · exact hhd (h2 ▸ this)
        · simp at h2)
      (by rw [map_nodeId_pushBack]; exact hnd)
    rw [refDequeFrom_pushBack xs []] at h1
    simp only [List.nil_append] at h1
    exact traverseFrom_ring h1 fuel hfuel
  · intro hd h xs fuel hr hnd hhd hfuel
    obtain ⟨h1, _⟩ := runOps_ring hd (xs.map DOp.pushFront) h [] hr
      (by
        intro op ho hm
        have : DOp.nodeId op ∈ xs := by
          rw [← map_nodeId_pushFront xs]
          exact List.mem_map_of_mem DOp.nodeId ho
        rcases List.mem_cons.mp hm with h2 | h2
        · exact hhd (h2 ▸ this)
        · simp at h2)
      (by rw [map_nodeId_pushFront]; exact hnd)
    rw [refDequeFrom_pushFront xs []] at h1
    simp only [List.append_nil] at h1
    refine traverseFrom_ring h1 fuel ?_
    simpa using hfuel

theorem iteration_order_witness :
    traverseFrom (runOps 3 (exEmpty 3) ([1, 2].map DOp.pushBack)) 3 2
      (intrusive_list.front (runOps 3 (exEmpty 3) ([1, 2].map DOp.pushBack)) 3)
      = [1, 2] :=
  iteration_order.1 3 (exEmpty 3) [1, 2] 2 (by decide) (by decide)
    (by decide) (by decide)

/-- C5: erase during iteration: erasing the member under an iterator removes
exactly that element, returns the node that originally followed it (the
sentinel, i.e. end(), when it was last), and the traversal continued from
the returned iterator visits exactly the elements that followed it, while a
full fresh traversal visits every remaining element exactly once. -/
theorem erase_iteration :
    ∀ (h : Heap) (hd x : Nat) (xs ys : List Nat),
      isRing h (hd :: (xs ++ x :: ys)) →
      (intrusive_list.erase h x).2 = ys.headD hd ∧
        isRing (intrusive_list.erase h x).1 (hd :: (xs ++ ys)) ∧
        (∀ fuel, ys.length ≤ fuel →
          traverseFrom (intrusive_list.erase h x).1 hd fuel
            (intrusive_list.erase h x).2 = ys) ∧
        (∀ fuel, (xs ++ ys).length ≤ fuel →
          traverseFrom (intrusive_list.erase h x).1 hd fuel
            (intrusive_list.front (intrusive_list.erase h x).1 hd)
            = xs ++ ys) := by
  intro h hd x xs ys hr
  obtain ⟨hret, hring⟩ := erase_ring hr
  refine ⟨hret, hring, ?_, ?_⟩
  · intro fuel hfuel
    rw [hret]
    refine traverseFrom_chain (intrusive_list.erase h x).1 hd ys fuel ?_ ?_ hfuel
    · have hc : List.Chain' (linked (intrusive_list.erase h x).1)
          (hd :: ((xs ++ ys) ++ [hd])) := by
        simpa using isRing_chain hring
      refine List.Chain'.suffix hc ⟨hd :: xs, by simp⟩
    · intro hm
      have hnd := hring.1
      rw [List.nodup_cons] at hnd
      exact hnd.1 (by simp [hm])
  · intro fuel hfuel
    exact traverseFrom_ring hring fuel hfuel

theorem erase_iteration_witness :
    (intrusive_list.erase exRing 2).2 = List.headD [3] 9 ∧
      isRing (intrusive_list.erase exRing 2).1 (9 :: ([1] ++ [3])) ∧
      (∀ fuel, List.length [3] ≤ fuel →
        traverseFrom (intrusive_list.erase exRing 2).1 9 fuel
          (intrusive_list.erase exRing 2).2 = [3]) ∧
      (∀ fuel, List.length ([1] ++ [3]) ≤ fuel →
        traverseFrom (intrusive_list.erase exRing 2).1 9 fuel
          (intrusive_list.front (intrusive_list.erase exRing 2).1 9)
          = [1] ++ [3]) :=
  erase_iteration exRing 9 2 [1] [3] (by decide)

/-- C6: rotate_left: a no-op on the empty list; on a non-empty list the
front element moves to the back, the previously second element (if any)
becoming the new front; and N applications to an N-element list restore the
original order. -/
theorem rotate_left_spec :
    (∀ (h : Heap) (hd : Nat), isRing h [hd] →
        intrusive_list.rotate_left h hd = h)
  ∧ (∀ (h : Heap) (hd x : Nat) (es : List Nat), isRing h (hd :: x :: es) →
        isRing (intrusive_list.rotate_left h hd) (hd :: (es ++ [x])) ∧
          intrusive_list.front (intrusive_list.rotate_left h hd) hd
            = es.headD x ∧
          intrusive_list.back (intrusive_list.rotate_left h hd) hd = x)
  ∧ (∀ (h : Heap) (hd : Nat) (es : List Nat), isRing h (hd :: es) →
        isRing ((fun g => intrusive_list.rotate_left g hd)^[es.length] h)
          (hd :: es)) := by
  refine ⟨?_, ?_, ?_⟩
  · intro h hd hr
    have hn : (h hd).next = some hd := by simpa using isRing_next_head hr
    rw [intrusive_list.rotate_left, intrusive_list.internal.list_rotate_left]
    simp [intrusive_list.internal.list_empty, hn]
  · intro h hd x es hr
    have h1 := list_rotate_left_ring hr
    have hrot : (x :: es).rotate 1 = es ++ [x] := by
      rw [List.rotate_cons_succ, List.rotate_zero]
    rw [hrot] at h1
    have h1' : isRing (intrusive_list.rotate_left h hd) (hd :: (es ++ [x])) := h1
    refine ⟨h1', ?_, ?_⟩
    · rw [intrusive_list.front, isRing_next_head h1']
      rw [headD_append_singleton es x hd]
      rfl
    · rw [intrusive_list.back, isRing_prev_head h1']
      rw [getLastD_append_singleton es x hd]
      rfl
  · intro h hd es hr
    have := rotate_iter_ring hr es.length
    rwa [List.rotate_length] at this

theorem rotate_left_spec_witness :
    intrusive_list.rotate_left (exEmpty 4) 4 = exEmpty 4 :=
  rotate_left_spec.1 (exEmpty 4) 4 (by decide)

/-- C7: is_singular() computes !empty() && sentinel.next == sentinel.prev,
and under the ring invariant this is true exactly when one element is
linked. -/
theorem is_singular_spec :
    (∀ (h : Heap) (hd : Nat),
        intrusive_list.is_singular h hd
          = (!intrusive_list.internal.list_empty h hd
              && ((h hd).next == (h hd).prev)))
  ∧ (∀ (h : Heap) (hd : Nat) (es : List Nat), isRing h (hd :: es) →
        (intrusive_list.is_singular h hd = true ↔ es.length = 1)) := by
  constructor
  · intro h hd
    rfl
  · intro h hd es hr
    exact is_singular_iff hr

theorem is_singular_spec_witness :
    intrusive_list.is_singular exRing 9 = true
      ↔ List.length [1, 2, 3] = 1 :=
  is_singular_spec.2 exRing 9 [1, 2, 3] (by decide)

/-- C8: remove_if_exists: no effect when the element's node is detached
(both link pointers null); when the node is a list member (both pointers
non-null, as the ring invariant guarantees) it is unlinked in O(1), left
detached, and the remaining elements keep their ring order. -/
theorem remove_if_exists_spec :
    (∀ (h : Heap) (x : Nat),
        (h x).next = none → (h x).prev = none →
        intrusive_list.remove_if_exists h x = h)
  ∧ (∀ (h : Heap) (x : Nat) (rest : List Nat), isRing h (x :: rest) →
        (h x).next.isSome ∧ (h x).prev.isSome ∧
          isRing (intrusive_list.remove_if_exists h x) rest ∧
          (intrusive_list.remove_if_exists h x) x = ⟨none, none⟩) := by
  constructor
  · intro h x hn hp
    exact remove_if_exists_detached hn hp
  · intro h x rest hr
    obtain ⟨h1, h2⟩ := remove_if_exists_member hr
    refine ⟨?_, ?_, h1, h2⟩
    · rw [isRing_next_head hr]; rfl
    · rw [isRing_prev_head hr]; rfl

theorem remove_if_exists_spec_witness :
    (exRing 1).next.isSome ∧ (exRing 1).prev.isSome ∧
      isRing (intrusive_list.remove_if_exists exRing 1) [2, 3, 9] ∧
      (intrusive_list.remove_if_exists exRing 1) 1 = ⟨none, none⟩ :=
  remove_if_exists_spec.2 exRing 1 [2, 3, 9] (by decide)

/-- C9: the singly-linked remove_if removes, in a single forward pass, every
currently linked node satisfying the predicate and returns the number
removed (the remaining sequence is the filter by the negated predicate, the
count the number of satisfying nodes); in the concrete scenario, push_front
of values 0..9 yields the list [9,...,0], remove_if (v > 4 && v < 8)
removes exactly the values 5, 6, 7 returning 3, and an immediately repeated
identical call removes nothing and returns 0. -/
theorem forward_remove_if_spec :
    (∀ (l : List Nat) (p : Nat → Bool),
        (intrusive_list.forward_remove_if l p).1
            = l.filter (fun v => !(p v)) ∧
          (intrusive_list.forward_remove_if l p).2 = (l.filter p).length)
  ∧ ((List.range 10).foldl intrusive_list.forward_push_front []
        = [9, 8, 7, 6, 5, 4, 3, 2, 1, 0] ∧
      intrusive_list.forward_remove_if [9, 8, 7, 6, 5, 4, 3, 2, 1, 0]
          (fun v => decide (4 < v) && decide (v < 8))
        = ([9, 8, 4, 3, 2, 1, 0], 3) ∧
      intrusive_list.forward_remove_if [9, 8, 4, 3, 2, 1, 0]
          (fun v => decide (4 < v) && decide (v < 8))
        = ([9, 8, 4, 3, 2, 1, 0], 0)) := by
  constructor
  · intro l p
    rw [forward_remove_if_eq p l]
    exact ⟨rfl, rfl⟩
  · refine ⟨by decide, ?_, ?_⟩
    · rw [forward_remove_if_eq]
      decide
    · rw [forward_remove_if_eq]
      decide

/-- C10: the list::list<T, node_field> wrapper class is a non-functional
stub at its public interface: empty() returns false on every list, including
a newly constructed one; head(), tail(), next() and prev() return null; and
every insert, remove and clear operation leaves the list state unchanged. -/
theorem list_stub_spec :
    ∀ (s : list.list) (e i : Option Nat),
      list.list.empty s = false ∧
      list.list.empty list.list.init = false ∧
      list.list.head s = none ∧
      list.list.tail s = none ∧
      list.list.next s i = none ∧
      list.list.prev s i = none ∧
      list.list.insert_head s e = s ∧
      list.list.insert_tail s e = s ∧
      list.list.insert_after s e i = s ∧
      list.list.insert_before s e i = s ∧
      list.list.remove s e = s ∧
      list.list.remove_head s = s ∧
      list.list.remove_tail s = s ∧
      list.list.clear s = s :=
  fun _ _ _ => ⟨rfl, rfl, rfl, rfl, rfl, rfl, rfl, rfl, rfl, rfl, rfl, rfl,
    rfl, rfl⟩
